import Mathlib

/-!
Shallow embedding of the `ukkonen` repository: three Python implementations of
Ukkonen's online suffix-tree construction (`short_ukkonen.py`, `new_ukkonen.py`,
`ukkonen.py`), translated into executable Lean definitions, followed by theorems
checking the repository's specification claims against these definitions.

Conventions used throughout the embedding:
* Python `int` values that take part in subtraction are modelled as `Int`.
* Python dictionaries keyed by single characters are association lists that
  preserve insertion order (overwriting a key keeps its position), exactly as
  Python dictionaries do; the special `'suffix'` key, which can never collide
  with a one-character key, is modelled as a separate optional field.
* Python runtime failures (KeyError, IndexError, type errors from using the
  `'leaf'` sentinel as an index) are modelled by an error monad; `while` loops
  are modelled with explicit fuel, and the top-level drivers supply fuel that
  is large enough for every actual run.
-/

set_option maxRecDepth 40000

/-- Python sequence indexing `w[i]` for a possibly negative index `i`:
nonnegative indices count from the front, negative indices from the back,
out-of-range access fails. -/
def pyGet (w : List Char) (i : Int) : Option Char :=
  if 0 ≤ i then w.get? i.toNat
  else if 0 ≤ i + w.length then w.get? (i + w.length).toNat
  else none

/-- Lookup in an insertion-ordered association list (Python `d[c]`). -/
def lookupA {α : Type} : List (Char × α) → Char → Option α
  | [], _ => none
  | (c, a) :: rest, d => if c = d then some a else lookupA rest d

/-- Insert or overwrite in an insertion-ordered association list
(Python `d[c] = a`): an existing key keeps its position, a new key is
appended at the end. -/
def setA {α : Type} : List (Char × α) → Char → α → List (Char × α)
  | [], d, a => [(d, a)]
  | (c, a0) :: rest, d, a => if c = d then (c, a) :: rest else (c, a0) :: setA rest d a

/-- Update the element at index `v` of a list in place (Python `xs[v] = f xs[v]`;
all call sites of the embedding use indices that are in range). -/
def updAt {α : Type} : List α → Nat → (α → α) → List α
  | [], _, _ => []
  | a :: rest, 0, f => f a :: rest
  | a :: rest, v + 1, f => a :: updAt rest v f

namespace ShortUkkonen

/-!
Embedding of `src/short_ukkonen.py`.  The tree is a list of dictionaries; an
edge value is the triple `(position, length, target)` where the length is a
Python number that is either an `int` or `math.inf`, and the target is either
a node index or the string sentinel `'leaf'`.
-/

/-- Target of an edge: an internal node index or the `'leaf'` sentinel. -/
inductive Tgt : Type
  | node (n : Nat)
  | leaf
deriving DecidableEq, Repr

/-- Edge length: a Python integer or `math.inf`. -/
inductive SLen : Type
  | fin (i : Int)
  | inf
deriving DecidableEq, Repr

/-- Python subtraction `l - k` where `l` may be `math.inf`. -/
def SLen.subInt : SLen → Int → SLen
  | .fin m, k => .fin (m - k)
  | .inf, _ => .inf

/-- Python comparison `l <= k` where `l` may be `math.inf`. -/
def SLen.leInt : SLen → Int → Bool
  | .fin m, k => m ≤ k
  | .inf, _ => false

/-- Python comparison `l == k` where `l` may be `math.inf`. -/
def SLen.eqInt : SLen → Int → Bool
  | .fin m, k => m = k
  | .inf, _ => false

/-- Python comparison `l > k` where `l` may be `math.inf`. -/
def SLen.gtInt : SLen → Int → Bool
  | .fin m, k => k < m
  | .inf, _ => true

/-- One stored transition `(position, length, target)`. -/
structure SEdge : Type where
  s : Int
  l : SLen
  t : Tgt
deriving DecidableEq, Repr

/-- One dictionary of the Python `tree` list: the character-keyed transitions in
insertion order, and the value of the special `'suffix'` key if present. -/
structure SNode : Type where
  trans : List (Char × SEdge)
  suffix : Option Nat
deriving DecidableEq, Repr

abbrev STree := List SNode

/-- Write transition `tree[v][c] = e`. -/
def setTrans (t : STree) (v : Nat) (c : Char) (e : SEdge) : STree :=
  updAt t v (fun nd => ⟨setA nd.trans c e, nd.suffix⟩)

/-- Write suffix link `tree[v]['suffix'] = s`. -/
def setSuffix (t : STree) (v : Nat) (s : Nat) : STree :=
  updAt t v (fun nd => ⟨nd.trans, some s⟩)

/-- Read `tree[v][c]` (failing like Python on a missing node or key). -/
def getTrans (t : STree) (v : Nat) (c : Char) : Option SEdge := do
  let nd ← t.get? v
  lookupA nd.trans c

/-- The canonization loop of `short_ukkonen.py` (lines 120-128 of the source,
without the final `position` fix-up): starting from the lookup
`_, length_node_child, child = tree[node][word[position]]`, while
`length_node_child <= length` hop to `child` and consume the edge.  The
`'leaf'` sentinel used as a node index raises in Python, hence `none` here. -/
def canonLoop (word : List Char) (tree : STree) :
    Nat → Nat → Int → Int → Option (Nat × Int × Int)
  | 0, _, _, _ => none
  | fuel + 1, node, position, length => do
    let c ← pyGet word position
    let e ← getTrans tree node c
    if SLen.leInt e.l length then
      match e.l, e.t with
      | .fin m, .node v => canonLoop word tree fuel v (position + m) (length - m)
      | _, _ => none
    else
      some (node, position, length)

/-- Lines 105-111 of `short_ukkonen.py`: append the new node carrying the
phase-`p` leaf edge and the remainder of the split edge `e`, rewrite the split
edge to end at the new node, and wire the pending suffix link of
`previous_node` to the new node (the new node's index is `tree.length`). -/
def splitPoint (p : Nat) (letter cont c0 : Char) (e : SEdge) (tree : STree)
    (node : Nat) (position length : Int) (prevNode : Nat) : STree :=
  let newNode := tree.length
  let newTrans :=
    setA (setA ([] : List (Char × SEdge)) letter ⟨(p : Int), .inf, .leaf⟩)
      cont ⟨position + length, e.l.subInt length, e.t⟩
  let tree := tree ++ [⟨newTrans, none⟩]
  let tree := setTrans tree node c0 ⟨position, .fin length, .node newNode⟩
  setSuffix tree prevNode newNode

/-- Lines 113-118 of `short_ukkonen.py`: move the active point to the suffix,
at the root by consuming the first symbol, elsewhere by following the suffix
link of `node`. -/
def suffixMove (tree : STree) (node : Nat) (position length : Int) :
    Option (Nat × Int × Int) :=
  if node = 0 then
    some (node, position + 1, length - 1)
  else do
    let nd ← tree.get? node
    let s ← nd.suffix
    some (s, position, length)

/-- Lines 119-128 of `short_ukkonen.py`: canonize the active point by the hop
loop and, when it remains implicit, set `position` to the stored start of the
edge it sits on. -/
def canonFix (word : List Char) (canonFuel : Nat) (tree : STree) (node : Nat)
    (position length : Int) : Option (Nat × Int × Int) := do
  let (node, position, length) ← canonLoop word tree canonFuel node position length
  let position ←
    if 0 < length then do
      let c2 ← pyGet word position
      let e2 ← getTrans tree node c2
      some e2.s
    else
      some position
  some (node, position, length)

/-- Lines 113-128 of `short_ukkonen.py`: the suffix move followed by
canonization. -/
def suffixMoveCanon (word : List Char) (canonFuel : Nat) (tree : STree)
    (node : Nat) (position length : Int) : Option (Nat × Int × Int) := do
  let (node, position, length) ← suffixMove tree node position length
  canonFix word canonFuel tree node position length

/-- The first `while` loop of `short_ukkonen.py` (lines 103-128): while the
active point is non-explicit and lacks a `letter` continuation, split the edge
at the point into a new node, attach the new phase-`p` leaf, wire the pending
suffix link, move to the suffix and canonize.  Returns the updated
`(tree, node, position, length, previous_node)`. -/
def loop1 (word : List Char) (p : Nat) (letter : Char) (canonFuel : Nat) :
    Nat → STree → Nat → Int → Int → Nat → Option (STree × Nat × Int × Int × Nat)
  | 0, _, _, _, _, _ => none
  | fuel + 1, tree, node, position, length, prevNode => do
    if 0 < length then do
      let cont ← pyGet word (position + length)
      if letter = cont then
        some (tree, node, position, length, prevNode)
      else do
        let c0 ← pyGet word position
        let e ← getTrans tree node c0
        let newNode := tree.length
        let tree := splitPoint p letter cont c0 e tree node position length prevNode
        let prevNode := newNode
        let (node, position, length) ← suffixMoveCanon word canonFuel tree node position length
        loop1 word p letter canonFuel fuel tree node position length prevNode
    else
      some (tree, node, position, length, prevNode)

/-- The second `while` loop of `short_ukkonen.py` (lines 130-136): while at an
explicit non-root node without a `letter` transition, attach a leaf, wire the
pending suffix link, and move along the node's suffix link. -/
def loop2 (p : Nat) (letter : Char) :
    Nat → STree → Nat → Int → Nat → Option (STree × Nat × Nat)
  | 0, _, _, _, _ => none
  | fuel + 1, tree, node, length, prevNode => do
    if node = 0 then
      some (tree, node, prevNode)
    else do
      let nd ← tree.get? node
      if (lookupA nd.trans letter).isNone ∧ length = 0 then do
        let tree := setTrans tree node letter ⟨(p : Int), .inf, .leaf⟩
        let tree := setSuffix tree prevNode node
        let nd2 ← tree.get? node
        let s ← nd2.suffix
        loop2 p letter fuel tree s length prevNode
      else
        some (tree, node, prevNode)

/-- Lines 146-154 of `short_ukkonen.py`: look up the transition the active
point is about to absorb — keyed by `letter` when the point is explicit (also
wiring the pending suffix link), by `word[position]` otherwise — and reset
`position` to its stored start. -/
def absorbLookup (word : List Char) (letter : Char) (tree : STree) (node : Nat)
    (position length : Int) (prevNode : Nat) : Option (STree × Int × SLen × Tgt) :=
  if length = 0 then do
    let tree := setSuffix tree prevNode node
    let e ← getTrans tree node letter
    some (tree, e.s, e.l, e.t)
  else do
    let c ← pyGet word position
    let e ← getTrans tree node c
    some (tree, e.s, e.l, e.t)

/-- Lines 138-160 of `short_ukkonen.py`: either attach a final leaf under the
root, or absorb `letter` into the active point (wiring the pending suffix link
when the point is explicit) and re-canonize by one step. -/
def phaseTail (word : List Char) (p : Nat) (letter : Char) (tree : STree)
    (node : Nat) (position length : Int) (prevNode : Nat) :
    Option (STree × Nat × Int × Int) := do
  let ndRoot ← tree.get? 0
  if node = 0 ∧ (lookupA ndRoot.trans letter).isNone then
    let tree := setTrans tree 0 letter ⟨(p : Int), .inf, .leaf⟩
    let tree := setSuffix tree prevNode 0
    some (tree, node, position, 0)
  else do
    let (tree, position, lnc, child) ←
      absorbLookup word letter tree node position length prevNode
    let length := length + 1
    if SLen.eqInt lnc length then
      match child with
      | .node v => some (tree, v, position, 0)
      | .leaf => none
    else
      some (tree, node, position, length)

/-- One iteration of the `for p in range(len(word))` loop of
`short_ukkonen.py`. -/
def phase (word : List Char) (fuel : Nat) (st : STree × Nat × Int × Int) (p : Nat) :
    Option (STree × Nat × Int × Int) := do
  let (tree, node, position, length) := st
  let letter ← word.get? p
  let prevNode := 0
  let (tree, node, position, length, prevNode) ←
    loop1 word p letter fuel fuel tree node position length prevNode
  let (tree, node, prevNode) ← loop2 p letter fuel tree node length prevNode
  phaseTail word p letter tree node position length prevNode

/-- Fuel that is ample for every loop of one run over `word`. -/
def fuelFor (word : List Char) : Nat :=
  2 * word.length + 4

/-- The function `ukkonen` of `src/short_ukkonen.py`: processes `word` phase by
phase and returns `(node, position, length, tree)` after the final clean-up
`tree[ROOT]['suffix'] = ROOT; if length == 0: position = 0`. -/
def ukkonen (word : List Char) : Option (Nat × Int × Int × STree) := do
  let (tree, node, position, length) ←
    (List.range word.length).foldlM (phase word (fuelFor word))
      (([⟨[], none⟩] : STree), 0, (0 : Int), (0 : Int))
  let tree := setSuffix tree 0 0
  let position := if length = 0 then 0 else position
  some (node, position, length, tree)

end ShortUkkonen

namespace UkkonenPy

/-!
Embedding of `src/ukkonen.py`.  Node 0 is the auxiliary `BOTTOM` state, node 1
is `ROOT`; a transition value is `(k, p, state)` storing the substring
`word[k:p+1]`, and every target (including leaves, which are nodes with an
empty dictionary) is a real node index.
-/

/-- One stored transition `(k, p, state)`. -/
structure PEdge : Type where
  k : Int
  p : Int
  st : Nat
deriving DecidableEq, Repr

/-- One dictionary of the `tree` list: character transitions plus the optional
`'suffix'` key. -/
structure PNode : Type where
  trans : List (Char × PEdge)
  suffix : Option Nat
deriving DecidableEq, Repr

abbrev PTree := List PNode

/-- Failure modes of a run: a Python KeyError or IndexError, or loop fuel
running out (which never happens with the fuel the drivers supply). -/
inductive PErr : Type
  | keyErr
  | idxErr
  | fuelOut
deriving DecidableEq, Repr

abbrev M (α : Type) := Except PErr α

/-- Lift a failing lookup into the error monad. -/
def liftK {α : Type} : Option α → M α
  | some a => .ok a
  | none => .error .keyErr

/-- Lift a failing word access into the error monad. -/
def liftI {α : Type} : Option α → M α
  | some a => .ok a
  | none => .error .idxErr

def BOTTOM : Nat := 0
def ROOT : Nat := 1

/-- Read `tree[state][word at index c]`. -/
def getTrans (t : PTree) (v : Nat) (c : Char) : M PEdge := do
  let nd ← liftI (t.get? v)
  liftK (lookupA nd.trans c)

/-- Write `tree[v][c] = e`. -/
def setTrans (t : PTree) (v : Nat) (c : Char) (e : PEdge) : PTree :=
  updAt t v (fun nd => ⟨setA nd.trans c e, nd.suffix⟩)

/-- Write `tree[v]['suffix'] = s`. -/
def setSuffix (t : PTree) (v : Nat) (s : Nat) : PTree :=
  updAt t v (fun nd => ⟨nd.trans, some s⟩)

/-- The function `test_and_split` of `src/ukkonen.py`: test whether the active
point `(state, k, p)` has a `letter`-transition and split the edge it sits on
into a new explicit state otherwise.  Returns
`(has_transition, explicit_state, updated tree)`. -/
def testAndSplit (word : List Char) (tree : PTree) (state : Nat) (k p : Int)
    (letter : Char) : M (Bool × Nat × PTree) := do
  if state = BOTTOM then
    pure (true, state, tree)
  else if k ≤ p then do
    let c ← liftI (pyGet word k)
    let e ← getTrans tree state c
    let c2 ← liftI (pyGet word (e.k + p - k + 1))
    if letter = c2 then
      pure (true, state, tree)
    else do
      let rState := tree.length
      let tree := tree ++ [(⟨[], none⟩ : PNode)]
      let tree := setTrans tree state c ⟨e.k, e.k + p - k, rState⟩
      let tree := setTrans tree rState c2 ⟨e.k + p - k + 1, e.p, e.st⟩
      pure (false, rState, tree)
  else do
    let nd ← liftI (tree.get? state)
    pure ((lookupA nd.trans letter).isSome, state, tree)

/-- The `while pp - kk <= p - k` loop of `canonize`; note that after the hop
the stored edge is refreshed only when `k <= p` still holds, exactly as in the
source. -/
def canonizeLoop (word : List Char) (tree : PTree) :
    Nat → Nat → Int → Int → PEdge → M (Nat × Int)
  | 0, _, _, _, _ => .error .fuelOut
  | fuel + 1, state, k, p, e =>
    if e.p - e.k ≤ p - k then do
      let k := k + e.p - e.k + 1
      let state := e.st
      if k ≤ p then do
        let c ← liftI (pyGet word k)
        let e2 ← getTrans tree state c
        canonizeLoop word tree fuel state k p e2
      else
        canonizeLoop word tree fuel state k p e
    else
      pure (state, k)

/-- The function `canonize` of `src/ukkonen.py`: walk the active point down
existing transitions until the remaining substring fits strictly inside one
edge.  Returns the canonized `(state, k)`. -/
def canonize (word : List Char) (tree : PTree) (fuel : Nat) (state : Nat)
    (k p : Int) : M (Nat × Int) := do
  if p < k then
    pure (state, k)
  else do
    let c ← liftI (pyGet word k)
    let e ← getTrans tree state c
    canonizeLoop word tree fuel state k p e

/-- The `while not is_end_point` loop of `update`. -/
def updateLoop (word : List Char) (fuel : Nat) (i : Nat) :
    Nat → PTree → Nat → Int → Nat → Bool → Nat → M (PTree × Nat × Int × Nat)
  | 0, _, _, _, _, _, _ => .error .fuelOut
  | loopFuel + 1, tree, state, k, oldr, isEnd, r => do
    if isEnd then
      pure (tree, state, k, oldr)
    else do
      let letter ← liftI (word.get? i)
      let rr := tree.length
      let tree := tree ++ [(⟨[], none⟩ : PNode)]
      let tree := setTrans tree r letter ⟨(i : Int), (word.length : Int) - 1, rr⟩
      let tree := if oldr ≠ ROOT then setSuffix tree oldr r else tree
      let oldr := r
      let nd ← liftI (tree.get? state)
      let sfx ← liftK nd.suffix
      let (state, k) ← canonize word tree fuel sfx k ((i : Int) - 1)
      let (isEnd, r, tree) ← testAndSplit word tree state k ((i : Int) - 1) letter
      updateLoop word fuel i loopFuel tree state k oldr isEnd r

/-- The function `update` of `src/ukkonen.py`: perform phase `i`, attaching
leaves along the boundary path until the end point is reached, and wire the
suffix links of the states created on the way.  Returns the new
`(tree, state, k)`. -/
def update (word : List Char) (fuel : Nat) (tree : PTree) (state : Nat)
    (k : Int) (i : Nat) : M (PTree × Nat × Int) := do
  let letter ← liftI (word.get? i)
  let oldr := ROOT
  let (isEnd, r, tree) ← testAndSplit word tree state k ((i : Int) - 1) letter
  let (tree, state, k, oldr) ← updateLoop word fuel i fuel tree state k oldr isEnd r
  let tree := if oldr ≠ ROOT then setSuffix tree oldr state else tree
  pure (tree, state, k)

/-- The initial tree of `ukkonen`: the `BOTTOM` state carrying a transition
`(0, 0, ROOT)` for each of the 26 lowercase letters, and the `ROOT` state with
its suffix link to `BOTTOM`. -/
def initTree : PTree :=
  [⟨"abcdefghijklmnopqrstuvwxyz".toList.map (fun c => (c, ⟨0, 0, ROOT⟩)), none⟩,
   ⟨[], some 0⟩]

/-- One phase of the driver loop of `ukkonen`: `update` then `canonize`.  This
is the composition of the single-phase entry points the specification exposes
for incremental construction. -/
def phaseStep (word : List Char) (fuel : Nat) (acc : PTree × Nat × Int)
    (i : Nat) : M (PTree × Nat × Int) := do
  let (tree, state, k) := acc
  let (tree, state, k) ← update word fuel tree state k i
  let (state, k) ← canonize word tree fuel state k (i : Int)
  pure (tree, state, k)

/-- The `for i in range(len(word))` loop of `ukkonen`, written as the source's
explicit loop running `i` from `0` while `r` phases remain. -/
def buildLoop (word : List Char) (fuel : Nat) :
    Nat → Nat → PTree × Nat × Int → M (PTree × Nat × Int)
  | _, 0, acc => pure acc
  | i, r + 1, acc => do
    let acc ← phaseStep word fuel acc i
    buildLoop word fuel (i + 1) r acc

/-- Ample fuel for one run over `word`. -/
def fuelFor (word : List Char) : Nat :=
  2 * word.length + 8

/-- The function `ukkonen` of `src/ukkonen.py`: build the suffix tree of
`word` starting from `initTree` with active point `(ROOT, 0)`, and return the
tree. -/
def ukkonen (word : List Char) : M PTree := do
  let (tree, _, _) ← buildLoop word (fuelFor word) 0 word.length (initTree, ROOT, 0)
  pure tree

/-- Every vertex above the auxiliary `BOTTOM` state and the root that carries
at least one character transition (i.e. every internal vertex of the suffix
tree proper, leaves being the appended empty dictionaries) also carries a
suffix link. -/
def PSuffixTotal (t : PTree) : Prop :=
  ∀ i nd, t.get? i = some nd → 2 ≤ i → nd.trans ≠ [] → nd.suffix.isSome = true

/-- `PSuffixTotal` with one vertex `x` temporarily exempted. -/
def PSuffixTotalE (t : PTree) (x : Nat) : Prop :=
  ∀ i nd, t.get? i = some nd → 2 ≤ i → nd.trans ≠ [] → i ≠ x → nd.suffix.isSome = true

/-- `PSuffixTotal` with two vertices temporarily exempted. -/
def PSuffixTotalE2 (t : PTree) (x y : Nat) : Prop :=
  ∀ i nd, t.get? i = some nd → 2 ≤ i → nd.trans ≠ [] → i ≠ x → i ≠ y →
    nd.suffix.isSome = true

/-- Driving the single-phase entry points phase by phase over the full word:
a fold of `phaseStep` over the phase indices. -/
def phaseByPhase (word : List Char) : M PTree := do
  let (tree, _, _) ←
    (List.range word.length).foldlM (phaseStep word (fuelFor word)) (initTree, ROOT, 0)
  pure tree

/-- Driving the single-phase entry points in streaming fashion: phase `i` is
run with only the prefix `word[0..=i]` available, which is what a caller
building over a growing input does. -/
def streamBuild (word : List Char) : M PTree := do
  let (tree, _, _) ←
    (List.range word.length).foldlM
      (fun acc i => phaseStep (word.take (i + 1)) (fuelFor word) acc i)
      (initTree, ROOT, 0)
  pure tree

end UkkonenPy

namespace NewUkkonen

/-!
Embedding of `src/new_ukkonen.py`.  The graph (`GraphWithEdgeContent`) is an
arena of dictionaries with the root at index 0; edge content is
`(pos, len, label)` where `label` is `LEAF` (`None`) for a leaf, and the
implicit state carries the cursor `(label, pos, len)` plus the configured
`leafs_length` (the word's length by default, `math.inf` under the
`'infinity'` configuration).
-/

/-- Target of an edge: an internal vertex or the `LEAF` (`None`) sentinel. -/
inductive NTgt : Type
  | node (n : Nat)
  | leaf
deriving DecidableEq, Repr

/-- Edge length: a Python integer or `math.inf`. -/
inductive NLen : Type
  | fin (i : Int)
  | inf
deriving DecidableEq, Repr

/-- Python subtraction `l - k` where `l` may be `math.inf`. -/
def NLen.subInt : NLen → Int → NLen
  | .fin m, k => .fin (m - k)
  | .inf, _ => .inf

/-- Python comparison `l < k` where `l` may be `math.inf`. -/
def NLen.ltInt : NLen → Int → Bool
  | .fin m, k => m < k
  | .inf, _ => false

/-- Python comparison `l == k` where `l` may be `math.inf`. -/
def NLen.eqInt : NLen → Int → Bool
  | .fin m, k => m = k
  | .inf, _ => false

/-- One stored edge content `(pos, len, label)`. -/
structure NEdge : Type where
  s : Int
  l : NLen
  t : NTgt
deriving DecidableEq, Repr

/-- One adjacency dictionary: character-keyed edges plus the `'suffix'` key. -/
structure NNode : Type where
  trans : List (Char × NEdge)
  suffix : Option Nat
deriving DecidableEq, Repr

/-- `GraphWithEdgeContent`: the root index (always 0) and the adjacency
arena; the constructor creates the root with no edges. -/
structure Graph : Type where
  root : Nat
  adjacencies : List NNode
deriving DecidableEq, Repr

def Graph.init : Graph := ⟨0, [⟨[], none⟩]⟩

def Graph.numVertices (g : Graph) : Nat := g.adjacencies.length

/-- `add_vertex`: append a vertex with no outgoing edges, return its index. -/
def Graph.addVertex (g : Graph) : Nat × Graph :=
  (g.adjacencies.length, ⟨g.root, g.adjacencies ++ [⟨[], none⟩]⟩)

/-- `has_edge` restricted to character labels. -/
def Graph.hasEdge (g : Graph) (v : Nat) (c : Char) : Option Bool := do
  let nd ← g.adjacencies.get? v
  pure (lookupA nd.trans c).isSome

/-- `get_edge_content` for a character label. -/
def Graph.getEdge (g : Graph) (v : Nat) (c : Char) : Option NEdge := do
  let nd ← g.adjacencies.get? v
  lookupA nd.trans c

/-- `update_edge_content` for a character label. -/
def Graph.setEdge (g : Graph) (v : Nat) (c : Char) (e : NEdge) : Graph :=
  ⟨g.root, updAt g.adjacencies v (fun nd => ⟨setA nd.trans c e, nd.suffix⟩)⟩

/-- `get_edge_content` for the `'suffix'` label. -/
def Graph.getSuffix (g : Graph) (v : Nat) : Option Nat := do
  let nd ← g.adjacencies.get? v
  nd.suffix

/-- `update_edge_content` for the `'suffix'` label. -/
def Graph.setSuffix (g : Graph) (v : Nat) (s : Nat) : Graph :=
  ⟨g.root, updAt g.adjacencies v (fun nd => ⟨nd.trans, some s⟩)⟩

/-- Failure modes: a Python runtime error, or fuel running out. -/
inductive NErr : Type
  | err
  | fuelOut
deriving DecidableEq, Repr

abbrev M (α : Type) := Except NErr α

/-- Lift a failing access into the error monad. -/
def liftE {α : Type} : Option α → M α
  | some a => .ok a
  | none => .error .err

/-- `ImplicitState`: the word, the graph, the root index, the cursor
`(label, pos, len)` and the configured length of leaf edges. -/
structure IState : Type where
  word : List Char
  tree : Graph
  root : Nat
  label : Nat
  pos : Int
  len : Int
  leafsLength : NLen
deriving DecidableEq, Repr

/-- The constructor `ImplicitState(word)` with the default
`leafs_length = 'word length'` configuration. -/
def IState.init (word : List Char) : IState :=
  ⟨word, Graph.init, 0, 0, 0, 0, .fin (word.length : Int)⟩

/-- The constructor with the `leafs_length = 'infinity'` configuration. -/
def IState.initInf (word : List Char) : IState :=
  ⟨word, Graph.init, 0, 0, 0, 0, .inf⟩

def IState.isExplicit (s : IState) : Bool := s.len = 0

def IState.isRoot (s : IState) : Bool :=
  s.label = s.root ∧ s.pos = 0 ∧ s.len = 0

/-- `has_transition`: does the state have an outgoing continuation on
`word[position]`? -/
def IState.hasTransition (s : IState) (position : Nat) : M Bool := do
  if s.isExplicit then do
    let c ← liftE (s.word.get? position)
    liftE (s.tree.hasEdge s.label c)
  else do
    let c0 ← liftE (pyGet s.word s.pos)
    let e ← liftE (s.tree.getEdge s.label c0)
    let cp ← liftE (s.word.get? position)
    let ck ← liftE (pyGet s.word (e.s + s.len))
    pure (cp = ck)

/-- `move`: reposition the cursor. -/
def IState.move (s : IState) (label : Nat) (pos len : Int) : IState :=
  { s with label := label, pos := pos, len := len }

/-- The `while l < self.len` loop of `make_canonical`, together with the final
`if l == self.len` collapse.  Hopping onto the `LEAF` sentinel would make the
next Python dictionary access fail, hence `.error .err` in those branches. -/
def makeCanonicalLoop : Nat → IState → M IState
  | 0, _ => .error .fuelOut
  | fuel + 1, s => do
    let c ← liftE (pyGet s.word s.pos)
    let e ← liftE (s.tree.getEdge s.label c)
    if e.l.ltInt s.len then
      match e.l, e.t with
      | .fin m, .node v => makeCanonicalLoop fuel (s.move v (s.pos + m) (s.len - m))
      | _, _ => .error .err
    else if e.l.eqInt s.len then
      match e.t with
      | .node v => pure (s.move v 0 0)
      | .leaf => .error .err
    else
      pure s

/-- `make_canonical`: push a non-explicit state as far down the tree as the
existing edges allow. -/
def IState.makeCanonical (fuel : Nat) (s : IState) : M IState :=
  if s.isExplicit then pure s else makeCanonicalLoop fuel s

/-- `move_to_suffix`: drop the first symbol (at the root) or jump across the
suffix link, then canonize. -/
def IState.moveToSuffix (fuel : Nat) (s : IState) : M IState := do
  let s ←
    if s.label = s.root then
      let len := s.len - 1
      let pos := if len = 0 then 0 else s.pos + 1
      pure { s with pos := pos, len := len }
    else do
      let sfx ← liftE (s.tree.getSuffix s.label)
      pure { s with label := sfx }
  s.makeCanonical fuel

/-- `add_explicit`: return the current vertex if the state is explicit,
otherwise split the edge the state sits on at the cursor and return the new
vertex. -/
def IState.addExplicit (s : IState) : M (Nat × IState) := do
  if s.isExplicit then
    pure (s.label, s)
  else do
    let c0 ← liftE (pyGet s.word s.pos)
    let e ← liftE (s.tree.getEdge s.label c0)
    let (newState, tree) := s.tree.addVertex
    let cp ← liftE (pyGet s.word e.s)
    let tree := tree.setEdge s.label cp ⟨e.s, .fin s.len, .node newState⟩
    let cq ← liftE (pyGet s.word (e.s + s.len))
    let tree := tree.setEdge newState cq ⟨e.s + s.len, e.l.subInt s.len, e.t⟩
    pure (newState, { s with tree := tree })

/-- `add_leaf`: make the state explicit and attach a leaf edge keyed by
`word[position]` with content `(position, leafs_length - position, LEAF)`. -/
def IState.addLeaf (s : IState) (position : Nat) : M (Nat × IState) := do
  let (newState, s) ← s.addExplicit
  let c ← liftE (s.word.get? position)
  let tree := s.tree.setEdge newState c ⟨(position : Int), s.leafsLength.subInt (position : Int), .leaf⟩
  pure (newState, { s with tree := tree })

/-- `elongate`: absorb the symbol `word[position]` into the cursor and
canonize. -/
def IState.elongate (fuel : Nat) (s : IState) (position : Nat) : M IState := do
  let s :=
    if s.isExplicit then s.move s.label (position : Int) 1
    else { s with len := s.len + 1 }
  s.makeCanonical fuel

/-- The inner `while (not s.has_transition(p)) and (not s.is_root())` loop of
`ukkonen`: attach further leaves along the suffix-link chain, wiring the
suffix link of the previously split vertex at each step. -/
def ukkonenLoop (fuel : Nat) (p : Nat) :
    Nat → IState → Nat → M (IState × Nat)
  | 0, _, _ => .error .fuelOut
  | loopFuel + 1, s, explicitState => do
    let ht ← s.hasTransition p
    if ¬ ht ∧ ¬ s.isRoot then do
      let (newExplicitState, s) ← s.addLeaf p
      let s := { s with tree := s.tree.setSuffix explicitState newExplicitState }
      let s ← s.moveToSuffix fuel
      ukkonenLoop fuel p loopFuel s newExplicitState
    else
      pure (s, explicitState)

/-- One iteration of the `for p in range(len(word))` loop of `ukkonen`. -/
def ukkonenPhase (fuel : Nat) (s : IState) (p : Nat) : M IState := do
  let ht ← s.hasTransition p
  if ht then
    s.elongate fuel p
  else if s.isRoot then do
    let (_, s) ← s.addLeaf p
    pure s
  else do
    let (explicitState, s) ← s.addLeaf p
    let s ← s.moveToSuffix fuel
    let (s, explicitState) ← ukkonenLoop fuel p fuel s explicitState
    let ht ← s.hasTransition p
    if ht then do
      let s := { s with tree := s.tree.setSuffix explicitState s.label }
      s.elongate fuel p
    else do
      let s := { s with tree := s.tree.setSuffix explicitState s.root }
      let (_, s) ← s.addLeaf p
      pure s

/-- Ample fuel for one run over `word`. -/
def fuelFor (word : List Char) : Nat :=
  2 * word.length + 4

/-- The function `ukkonen` of `src/new_ukkonen.py`: build the suffix tree of
`word` (default configuration) and return the final implicit state. -/
def ukkonen (word : List Char) : M IState :=
  (List.range word.length).foldlM (ukkonenPhase (fuelFor word)) (IState.init word)

/-- The same driver run on the `'infinity'` leaf-length configuration. -/
def ukkonenInf (word : List Char) : M IState :=
  (List.range word.length).foldlM (ukkonenPhase (fuelFor word)) (IState.initInf word)

end NewUkkonen


namespace ShortUkkonen

/-!
Specification-side vocabulary over the `short_ukkonen` tree: the substring a
stored transition resolves to, the factor spelled by the root-to-vertex path,
the string denoted by the returned active point, and a decision procedure for
"this suffix can be read from the root".
-/

/-- The substring of `word` carried by a stored transition: `word[s : s + l]`,
where an infinite length reaches the end of the processed word. -/
def resolveEdge (word : List Char) (e : SEdge) : List Char :=
  match e.l with
  | .fin m => (word.drop e.s.toNat).take m.toNat
  | .inf => word.drop e.s.toNat

/-- The unique parent transition of vertex `v` in the tree, if any. -/
def findParent (t : STree) (v : Nat) : Option (Nat × SEdge) :=
  t.enum.findSome? fun un =>
    un.2.trans.findSome? fun ce =>
      if ce.2.t = .node v then some (un.1, ce.2) else none

/-- The factor spelled by the root-to-`v` path: the concatenation of the
resolved substrings of the transitions from the root down to `v` (`fuel`
bounds the climb; any fuel above the tree size is enough). -/
def factorOf (word : List Char) (t : STree) : Nat → Nat → Option (List Char)
  | 0, _ => none
  | _ + 1, 0 => some []
  | fuel + 1, v => do
    let (u, e) ← findParent t v
    let f ← factorOf word t fuel u
    some (f ++ resolveEdge word e)

/-- The string denoted by the active point returned by the builder:
`factor(node) ++ word[position : position + length]`. -/
def pointFactor (word : List Char) : Option (List Char) := do
  let (node, position, length, t) ← ukkonen word
  let f ← factorOf word t (t.length + 1) node
  some (f ++ ((word.drop position.toNat).take length.toNat))

/-- Whether the string `s` can be read from vertex `v` by following
transitions (possibly ending in the middle of an edge). -/
def spellFrom (word : List Char) (t : STree) : Nat → Nat → List Char → Bool
  | 0, _, _ => false
  | _ + 1, _, [] => true
  | fuel + 1, v, c :: rest =>
    match getTrans t v c with
    | none => false
    | some e =>
      let lbl := resolveEdge word e
      if (c :: rest).take lbl.length = lbl.take (c :: rest).length then
        if (c :: rest).length ≤ lbl.length then true
        else
          match e.t with
          | .node u => spellFrom word t fuel u ((c :: rest).drop lbl.length)
          | .leaf => false
      else false

/-- Whether the tree built for `word` lets every suffix of `word` be read from
the root. -/
def representsAllSuffixes (word : List Char) : Bool :=
  match ukkonen word with
  | none => false
  | some (_, _, _, t) =>
    (List.range (word.length + 1)).all fun d =>
      spellFrom word t (t.length + 2) 0 (word.drop d)

/-!
Invariants of the `short_ukkonen` tree used by the claims: every stored
transition is keyed by the letter found at its stored start position, has
positive length, and leads to a leaf only with the infinite length; `Canon`
is the canonical form of the active point.
-/

/-- A property holding of every stored transition of the tree. -/
def TransPred (P : Char × SEdge → Prop) (t : STree) : Prop :=
  ∀ nd ∈ t, ∀ ce ∈ nd.trans, P ce

/-- Every transition's key is the letter of `word` at its stored start. -/
def KeyOK (word : List Char) (t : STree) : Prop :=
  TransPred (fun ce => pyGet word ce.2.s = some ce.1) t

/-- Every transition has length at least one. -/
def PosOK (t : STree) : Prop :=
  TransPred (fun ce => SLen.gtInt ce.2.l 0 = true) t

/-- Every transition to the leaf sentinel is open-ended (`math.inf`). -/
def LeafOK (t : STree) : Prop :=
  TransPred (fun ce => ce.2.t = .leaf → ce.2.l = .inf) t

/-- Canonical form of an active point `(node, position, length)`: a positive
`length` sits strictly inside the `word[position]`-transition of `node`,
whose stored start is `position` itself. -/
def Canon (word : List Char) (t : STree) (node : Nat) (position length : Int) : Prop :=
  0 < length →
    ∃ c e, pyGet word position = some c ∧ getTrans t node c = some e ∧
      e.s = position ∧ SLen.gtInt e.l length = true

/-- The combined tree invariant threaded through the build. -/
def TreeOK (word : List Char) (t : STree) : Prop :=
  0 < t.length ∧ KeyOK word t ∧ PosOK t ∧ LeafOK t

/-- The invariant carried by the phase fold of `ukkonen`. -/
def StOK (word : List Char) (st : STree × Nat × Int × Int) : Prop :=
  (KeyOK word st.1 ∧ PosOK st.1 ∧ LeafOK st.1) ∧
  Canon word st.1 st.2.1 st.2.2.1 st.2.2.2 ∧ 0 ≤ st.2.2.2 ∧ 0 < st.1.length

end ShortUkkonen

/-- Does the word `s` occur in `u` at some position strictly before the
occurrence of `s` as a suffix of `u`? -/
def occursBefore (u s : List Char) : Bool :=
  (List.range (u.length - s.length)).any fun j =>
    ((u.drop j).take s.length) == s

/-- The longest suffix of `u` that has at least one other, earlier occurrence
in `u` (the empty word if none does). -/
def lrs (u : List Char) : List Char :=
  match (List.range (u.length + 1)).filter (fun d => occursBefore u (u.drop d)) with
  | [] => []
  | d :: _ => u.drop d

namespace NewUkkonen

/-- Whether a stored length is at least one (`math.inf` counts as positive). -/
def NLen.geOne : NLen → Bool
  | .fin m => 1 ≤ m
  | .inf => true

/-- Every transition of the graph has length at least one. -/
def EdgesPos (g : Graph) : Prop :=
  (g.adjacencies.all fun nd => nd.trans.all fun ce => ce.2.l.geOne) = true

/-- The basic graph invariant: the root is vertex 0 and it is present in the
adjacency arena. -/
def GOk (g : Graph) : Prop :=
  g.root = 0 ∧ 0 < g.adjacencies.length

/-- Every vertex other than the root carries a suffix link. -/
def SuffixTotal (g : Graph) : Prop :=
  ∀ i nd, g.adjacencies.get? i = some nd → i ≠ g.root → nd.suffix.isSome = true

/-- `SuffixTotal` with one vertex `x` temporarily exempted (the vertex whose
link is still pending inside a phase). -/
def SuffixTotalE (g : Graph) (x : Nat) : Prop :=
  ∀ i nd, g.adjacencies.get? i = some nd → i ≠ g.root → i ≠ x → nd.suffix.isSome = true

/-- `SuffixTotal` with two vertices temporarily exempted. -/
def SuffixTotalE2 (g : Graph) (x y : Nat) : Prop :=
  ∀ i nd, g.adjacencies.get? i = some nd → i ≠ g.root → i ≠ x → i ≠ y →
    nd.suffix.isSome = true

end NewUkkonen

/-!
Generic lemmas about the dictionary and arena primitives, used by the
invariant proofs below.
-/

theorem lookupA_mem {α : Type} :
    ∀ {l : List (Char × α)} {c : Char} {a : α}, lookupA l c = some a → (c, a) ∈ l
  | [], _, _, h => by simp [lookupA] at h
  | (d, b) :: tl, c, a, h => by
    rw [lookupA] at h
    split at h
    · next heq =>
      cases h
      exact heq ▸ List.mem_cons_self _ _
    · exact List.mem_cons_of_mem _ (lookupA_mem h)

theorem mem_setA {α : Type} :
    ∀ {l : List (Char × α)} {c : Char} {e : α} {x : Char × α},
      x ∈ setA l c e → x = (c, e) ∨ x ∈ l
  | [], c, e, x, h => by
    simp only [setA, List.mem_singleton] at h
    exact Or.inl h
  | (d, b) :: tl, c, e, x, h => by
    rw [setA] at h
    split at h
    · next heq =>
      rcases List.mem_cons.mp h with h1 | h1
      · exact Or.inl (heq ▸ h1)
      · exact Or.inr (List.mem_cons_of_mem _ h1)
    · rcases List.mem_cons.mp h with h1 | h1
      · exact Or.inr (h1 ▸ List.mem_cons_self _ _)
      · rcases mem_setA h1 with h2 | h2
        · exact Or.inl h2
        · exact Or.inr (List.mem_cons_of_mem _ h2)

theorem mem_updAt {α : Type} :
    ∀ {l : List α} {v : Nat} {f : α → α} {x : α},
      x ∈ updAt l v f → x ∈ l ∨ ∃ y ∈ l, x = f y
  | [], _, _, _, h => by simp [updAt] at h
  | a :: tl, 0, f, x, h => by
    rcases List.mem_cons.mp h with h1 | h1
    · exact Or.inr ⟨a, List.mem_cons_self _ _, h1⟩
    · exact Or.inl (List.mem_cons_of_mem _ h1)
  | a :: tl, v + 1, f, x, h => by
    rcases List.mem_cons.mp h with h1 | h1
    · exact Or.inl (h1 ▸ List.mem_cons_self _ _)
    · rcases mem_updAt h1 with h2 | ⟨y, hy, hxy⟩
      · exact Or.inl (List.mem_cons_of_mem _ h2)
      · exact Or.inr ⟨y, List.mem_cons_of_mem _ hy, hxy⟩

theorem length_updAt {α : Type} :
    ∀ (l : List α) (v : Nat) (f : α → α), (updAt l v f).length = l.length
  | [], _, _ => rfl
  | _ :: tl, 0, f => rfl
  | a :: tl, v + 1, f => by simp [updAt, length_updAt tl v f]

theorem get?_updAt {α : Type} :
    ∀ (l : List α) (v : Nat) (f : α → α) (u : Nat),
      (updAt l v f).get? u = if u = v then (l.get? v).map f else l.get? u
  | [], v, f, u => by cases u <;> simp [updAt]
  | a :: tl, 0, f, 0 => by simp [updAt]
  | a :: tl, 0, f, u + 1 => by simp [updAt]
  | a :: tl, v + 1, f, 0 => by simp [updAt]
  | a :: tl, v + 1, f, u + 1 => by
    simp only [updAt, List.get?]
    rw [get?_updAt tl v f u]
    simp [Nat.succ_inj]

theorem pyGet_natCast (w : List Char) (n : Nat) : pyGet w (n : Int) = w.get? n := by
  simp [pyGet]

/-- Claim C2: building the suffix tree over `"abcacdae"` with `short_ukkonen`
yields exactly 3 vertices — vertex 0 (the root) with transitions
`a→1, b→leaf, c→2, d→leaf, e→leaf` and a self suffix link, vertex 1 with
`c→leaf, b→leaf, e→leaf` and suffix link 0, vertex 2 with `d→leaf, a→leaf`
and suffix link 0 — and each stored `(start, end)` pair resolves against
`"abcacdae"` to the substring of its transition. -/
theorem claimC2 :
    ShortUkkonen.ukkonen "abcacdae".toList =
      some (0, 0, 0,
        [⟨[('a', ⟨0, .fin 1, .node 1⟩), ('b', ⟨1, .inf, .leaf⟩), ('c', ⟨2, .fin 1, .node 2⟩),
           ('d', ⟨5, .inf, .leaf⟩), ('e', ⟨7, .inf, .leaf⟩)], some 0⟩,
         ⟨[('c', ⟨4, .inf, .leaf⟩), ('b', ⟨1, .inf, .leaf⟩), ('e', ⟨7, .inf, .leaf⟩)], some 0⟩,
         ⟨[('d', ⟨5, .inf, .leaf⟩), ('a', ⟨3, .inf, .leaf⟩)], some 0⟩]) ∧
    (ShortUkkonen.ukkonen "abcacdae".toList).map (fun r => r.2.2.2.length) = some 3 ∧
    (ShortUkkonen.ukkonen "abcacdae".toList).map
        (fun r => r.2.2.2.map fun nd =>
          nd.trans.map fun ce => (ce.1, ShortUkkonen.resolveEdge "abcacdae".toList ce.2)) =
      some [[('a', "a".toList), ('b', "bcacdae".toList), ('c', "c".toList),
             ('d', "dae".toList), ('e', "e".toList)],
            [('c', "cdae".toList), ('b', "bcacdae".toList), ('e', "e".toList)],
            [('d', "dae".toList), ('a', "acdae".toList)]] :=
  ⟨by decide, by decide, by decide⟩

/-- Claim C1 (code bug witness): on the input `"acaaabaac"` the active point
returned by `short_ukkonen` denotes the string `"c"`, while the longest
suffix of the word with an earlier occurrence is `"ac"`; moreover on
`"acaaabaabb"` the final tree does not even represent every suffix of the
word (the suffix `"abb"` cannot be read from the root). -/
theorem claimC1 :
    ShortUkkonen.pointFactor "acaaabaac".toList = some "c".toList ∧
    lrs "acaaabaac".toList = "ac".toList ∧
    ShortUkkonen.pointFactor "acaaabaac".toList ≠ some (lrs "acaaabaac".toList) ∧
    ShortUkkonen.representsAllSuffixes "acaaabaabb".toList = false ∧
    ShortUkkonen.spellFrom "acaaabaabb".toList
      (match ShortUkkonen.ukkonen "acaaabaabb".toList with
       | some (_, _, _, t) => t
       | none => []) 14 0 "abb".toList = false :=
  ⟨by decide, by decide, by decide, by decide, by decide⟩

/-- Claim C3 (code bug witness): in the tree built by `short_ukkonen` over
`"acaaab"`, vertex 2 spells the factor `"aa"` but its suffix link points to
vertex 0, which spells `""` — not `"a"`, the factor of vertex 2 with its
first symbol removed (vertex 1 spells `"a"`). -/
theorem claimC3 :
    (do
      let r ← ShortUkkonen.ukkonen "acaaab".toList
      let t := r.2.2.2
      let nd ← t.get? 2
      let s ← nd.suffix
      let fv ← ShortUkkonen.factorOf "acaaab".toList t (t.length + 1) 2
      let fs ← ShortUkkonen.factorOf "acaaab".toList t (t.length + 1) s
      let f1 ← ShortUkkonen.factorOf "acaaab".toList t (t.length + 1) 1
      some (s, fv, fs, f1)) = some (0, "aa".toList, "".toList, "a".toList) ∧
    "aa".toList.tail = "a".toList ∧ ("".toList : List Char) ≠ "a".toList :=
  ⟨by decide, by decide, by decide⟩

/-- Claim C4 counterexample: in the default-configuration `new_ukkonen` build
of `"ab"`, the two leaf edges are stored with the fixed numeric lengths
`2 = len(word) - 0` and `1 = len(word) - 1`, not with an open `'infinity'`
end marker. -/
theorem claimC4_counterexample :
    (NewUkkonen.ukkonen "ab".toList).toOption.map
        (fun s => s.tree.adjacencies.map (fun nd => nd.trans)) =
      some [[('a', ⟨0, .fin 2, .leaf⟩), ('b', ⟨1, .fin 1, .leaf⟩)]] ∧
    NewUkkonen.NLen.fin 2 ≠ NewUkkonen.NLen.inf ∧
    NewUkkonen.NLen.fin 1 ≠ NewUkkonen.NLen.inf :=
  ⟨by decide, by decide, by decide⟩

/-- Claim C5 counterexample: driving `ukkonen.py`'s single-phase entry points
over growing prefixes of `"aaa"` crashes with a KeyError (a missing suffix
link) where the whole-word build succeeds, and on the same word `"a"` the
variants disagree on the vertex count (`ukkonen.py` builds 3 vertices where
`short_ukkonen` builds 1). -/
theorem claimC5_counterexample :
    UkkonenPy.streamBuild "aaa".toList = .error .keyErr ∧
    (UkkonenPy.ukkonen "aaa".toList).toOption.isSome = true ∧
    (UkkonenPy.ukkonen "a".toList).toOption.map List.length = some 3 ∧
    (ShortUkkonen.ukkonen "a".toList).map (fun r => r.2.2.2.length) = some 1 ∧
    (3 : Nat) ≠ 1 :=
  ⟨rfl, rfl, rfl, rfl, by decide⟩

/-- Claim C6 counterexample: the `ukkonen.py` build over the empty word does
not yield a tree with only the root and no edges — it keeps the auxiliary
`BOTTOM` vertex, so the tree has 2 vertices and vertex 0 carries the 26
alphabet pseudo-transitions. -/
theorem claimC6_counterexample :
    (UkkonenPy.ukkonen []).toOption.map
        (fun t => (t.length, t.map (fun nd => nd.trans.length))) =
      some (2, [26, 0]) ∧
    (2 : Nat) ≠ 1 :=
  ⟨rfl, by decide⟩

/-- Claim C7 counterexample: in the `new_ukkonen` build over `"a"` the root
vertex carries no suffix link at all, so the root's suffix link does not
point to the root itself. -/
theorem claimC7_counterexample :
    (NewUkkonen.ukkonen ['a']).toOption.map
        (fun s => (s.tree.root, s.tree.adjacencies.map (fun nd => nd.suffix))) =
      some (0, [none]) ∧
    (none : Option Nat) ≠ some 0 :=
  ⟨rfl, by decide⟩

/-- Claim C8 counterexample: in `ukkonen.py` the vertex created first (index
0) is the auxiliary `BOTTOM` state and the root is `ROOT = 1`, so the root
vertex does not have index 0 there. -/
theorem claimC8_counterexample :
    UkkonenPy.ukkonen [] = .ok UkkonenPy.initTree ∧
    UkkonenPy.BOTTOM = 0 ∧ UkkonenPy.ROOT = 1 ∧
    (UkkonenPy.initTree.get? 0).map (fun nd => nd.trans.length) = some 26 ∧
    UkkonenPy.ROOT ≠ 0 :=
  ⟨rfl, rfl, rfl, rfl, by decide⟩


namespace ShortUkkonen

/-!
Invariant machinery for `short_ukkonen`: the three transition predicates are
preserved by every write the builder performs, and the loops preserve the
canonical form of the active point.
-/

theorem leInt_false_gtInt {l : SLen} {k : Int} (h : SLen.leInt l k = false) :
    SLen.gtInt l k = true := by
  cases l with
  | fin m =>
    simp only [SLen.leInt, decide_eq_false_iff_not, not_le] at h
    simpa [SLen.gtInt] using h
  | inf => rfl

theorem gtInt_subInt {l : SLen} {k : Int} (h : SLen.gtInt l k = true) :
    SLen.gtInt (l.subInt k) 0 = true := by
  cases l with
  | fin m =>
    simp only [SLen.gtInt, decide_eq_true_eq] at h
    simp only [SLen.subInt, SLen.gtInt, decide_eq_true_eq]
    omega
  | inf => rfl

theorem gtInt_succ {l : SLen} {k : Int} (h : SLen.gtInt l k = true)
    (hne : SLen.eqInt l (k + 1) = false) : SLen.gtInt l (k + 1) = true := by
  cases l with
  | fin m =>
    simp only [SLen.gtInt, decide_eq_true_eq] at h ⊢
    simp only [SLen.eqInt, decide_eq_false_iff_not] at hne
    omega
  | inf => rfl

theorem subInt_inf {k : Int} : SLen.subInt .inf k = .inf := rfl

theorem transPred_lookup {P : Char × SEdge → Prop} {t : STree} {v : Nat} {c : Char}
    {e : SEdge} (h : TransPred P t) (hl : getTrans t v c = some e) : P (c, e) := by
  unfold getTrans at hl
  cases hnd : t.get? v with
  | none => rw [hnd] at hl; cases hl
  | some nd =>
    rw [hnd] at hl
    simp only [Option.bind_eq_bind, Option.some_bind] at hl
    exact h nd (List.get?_mem hnd) _ (lookupA_mem hl)

theorem transPred_setTrans {P : Char × SEdge → Prop} {t : STree} {v : Nat} {c : Char}
    {e : SEdge} (h : TransPred P t) (he : P (c, e)) : TransPred P (setTrans t v c e) := by
  intro nd hnd ce hce
  rcases mem_updAt hnd with h1 | ⟨y, hy, hxy⟩
  · exact h nd h1 ce hce
  · subst hxy
    rcases mem_setA hce with h2 | h2
    · exact h2 ▸ he
    · exact h y hy ce h2

theorem transPred_setSuffix {P : Char × SEdge → Prop} {t : STree} {v s : Nat}
    (h : TransPred P t) : TransPred P (setSuffix t v s) := by
  intro nd hnd ce hce
  rcases mem_updAt hnd with h1 | ⟨y, hy, hxy⟩
  · exact h nd h1 ce hce
  · subst hxy
    exact h y hy ce hce

theorem transPred_append {P : Char × SEdge → Prop} {t : STree} {x : SNode}
    (h : TransPred P t) (hx : ∀ ce ∈ x.trans, P ce) : TransPred P (t ++ [x]) := by
  intro nd hnd ce hce
  rcases List.mem_append.mp hnd with h1 | h1
  · exact h nd h1 ce hce
  · rw [List.mem_singleton] at h1
    exact hx ce (h1 ▸ hce)

theorem getTrans_setSuffix (t : STree) (v s u : Nat) (c : Char) :
    getTrans (setSuffix t v s) u c = getTrans t u c := by
  unfold getTrans setSuffix
  rw [get?_updAt]
  split
  · next h =>
    subst h
    rcases t.get? u with _ | nd <;> rfl
  · rfl

theorem length_setTrans (t : STree) (v : Nat) (c : Char) (e : SEdge) :
    (setTrans t v c e).length = t.length :=
  length_updAt t v _

theorem length_setSuffix (t : STree) (v s : Nat) :
    (setSuffix t v s).length = t.length :=
  length_updAt t v _

theorem canonLoop_some {word : List Char} {tree : STree} :
    ∀ {fuel node : Nat} {position length : Int} {n : Nat} {p l : Int},
      canonLoop word tree fuel node position length = some (n, p, l) →
      0 ≤ length →
      0 ≤ l ∧ ∃ c e, pyGet word p = some c ∧ getTrans tree n c = some e ∧
        SLen.leInt e.l l = false
  | 0, node, position, length, n, p, l, h, h0 => by cases h
  | fuel + 1, node, position, length, n, p, l, h, h0 => by
    rw [canonLoop] at h
    rw [Option.bind_eq_bind, Option.bind_eq_some] at h
    obtain ⟨c, hc, h⟩ := h
    rw [Option.bind_eq_bind, Option.bind_eq_some] at h
    obtain ⟨e, he, h⟩ := h
    split at h
    · next hle =>
      split at h
      · next m v heqL heqT =>
        have hm : m ≤ length := by
          rw [heqL] at hle
          simpa [SLen.leInt] using hle
        exact canonLoop_some h (by omega)
      · cases h
    · next hle =>
      cases h
      refine ⟨h0, c, e, hc, he, ?_⟩
      simpa using hle

end ShortUkkonen

namespace ShortUkkonen

theorem length_splitPoint (p : Nat) (letter cont c0 : Char) (e : SEdge) (tree : STree)
    (node : Nat) (position length : Int) (prevNode : Nat) :
    (splitPoint p letter cont c0 e tree node position length prevNode).length =
      tree.length + 1 := by
  unfold splitPoint
  rw [length_setSuffix, length_setTrans, List.length_append]
  rfl

theorem treeOK_splitPoint {word : List Char} {p : Nat} {letter cont c0 : Char}
    {e : SEdge} {tree : STree} {position length : Int} (node prevNode : Nat)
    (hkey : KeyOK word tree) (hpos : PosOK tree) (hleaf : LeafOK tree)
    (hp : pyGet word (p : Int) = some letter)
    (hcont : pyGet word (position + length) = some cont)
    (hc0 : pyGet word position = some c0)
    (hgt : SLen.gtInt e.l length = true)
    (hleafE : e.t = .leaf → e.l = .inf)
    (h0 : 0 < length) :
    KeyOK word (splitPoint p letter cont c0 e tree node position length prevNode) ∧
    PosOK (splitPoint p letter cont c0 e tree node position length prevNode) ∧
    LeafOK (splitPoint p letter cont c0 e tree node position length prevNode) := by
  unfold splitPoint
  have hmemNew : ∀ ce ∈ setA (setA ([] : List (Char × SEdge)) letter ⟨(p : Int), .inf, .leaf⟩)
      cont ⟨position + length, e.l.subInt length, e.t⟩,
      ce = (cont, (⟨position + length, e.l.subInt length, e.t⟩ : SEdge)) ∨
      ce = (letter, (⟨(p : Int), .inf, .leaf⟩ : SEdge)) := by
    intro ce hce
    rcases mem_setA hce with h1 | h1
    · exact Or.inl h1
    · rcases mem_setA h1 with h2 | h2
      · exact Or.inr h2
      · simp at h2
  refine ⟨?_, ?_, ?_⟩
  · refine transPred_setSuffix (transPred_setTrans (transPred_append hkey ?_) hc0)
    intro ce hce
    rcases hmemNew ce hce with rfl | rfl
    · exact hcont
    · exact hp
  · refine transPred_setSuffix (transPred_setTrans (transPred_append hpos ?_) ?_)
    · intro ce hce
      rcases hmemNew ce hce with rfl | rfl
      · exact gtInt_subInt hgt
      · rfl
    · simp only [SLen.gtInt, decide_eq_true_eq]
      exact h0
  · refine transPred_setSuffix (transPred_setTrans (transPred_append hleaf ?_) ?_)
    · intro ce hce
      rcases hmemNew ce hce with rfl | rfl
      · intro ht
        rw [hleafE ht]
        rfl
      · intro _
        rfl
    · intro ht
      cases ht

theorem suffixMove_some {tree : STree} {node : Nat} {position length : Int}
    {n1 : Nat} {p1 l1 : Int}
    (h : suffixMove tree node position length = some (n1, p1, l1))
    (h0 : 0 < length) : 0 ≤ l1 := by
  unfold suffixMove at h
  split at h
  · cases h
    omega
  · rw [Option.bind_eq_bind, Option.bind_eq_some] at h
    obtain ⟨nd, hnd, h⟩ := h
    rw [Option.bind_eq_bind, Option.bind_eq_some] at h
    obtain ⟨s, hs, h⟩ := h
    cases h
    omega

theorem canonFix_some {word : List Char} {canonFuel : Nat} {tree : STree}
    {node : Nat} {position length : Int} {n : Nat} {q l : Int}
    (h : canonFix word canonFuel tree node position length = some (n, q, l))
    (hkey : KeyOK word tree) (h0le : 0 ≤ length) :
    Canon word tree n q l ∧ 0 ≤ l := by
  unfold canonFix at h
  rw [Option.bind_eq_bind, Option.bind_eq_some] at h
  obtain ⟨y, hcl, h⟩ := h
  obtain ⟨n2, p2, l2⟩ := y
  obtain ⟨hl2, c3, e3, hc3, he3, hle3⟩ := canonLoop_some hcl h0le
  split at h
  next heq =>
  injection heq with h1 hrest
  injection hrest with h2 h3
  subst h1
  subst h2
  subst h3
  split at h
  · next hpos2 =>
    rw [Option.bind_eq_bind, Option.bind_eq_some] at h
    obtain ⟨c2, hc2, h⟩ := h
    rw [Option.bind_eq_bind, Option.bind_eq_some] at h
    obtain ⟨e2, he2, h⟩ := h
    simp only [Option.bind_eq_bind, Option.some_bind] at h
    cases h
    rw [hc3] at hc2
    obtain rfl : c2 = c3 := by cases hc2; rfl
    rw [he3] at he2
    obtain rfl : e2 = e3 := by cases he2; rfl
    constructor
    · intro _
      exact ⟨c2, e2, transPred_lookup hkey he3, he3, rfl, leInt_false_gtInt hle3⟩
    · exact hl2
  · next hpos2 =>
    simp only [Option.bind_eq_bind, Option.some_bind] at h
    cases h
    constructor
    · intro habs
      exact absurd habs hpos2
    · exact hl2

theorem suffixMoveCanon_some {word : List Char} {canonFuel : Nat} {tree : STree}
    {node : Nat} {position length : Int} {n : Nat} {q l : Int}
    (h : suffixMoveCanon word canonFuel tree node position length = some (n, q, l))
    (hkey : KeyOK word tree) (h0 : 0 < length) :
    Canon word tree n q l ∧ 0 ≤ l := by
  unfold suffixMoveCanon at h
  rw [Option.bind_eq_bind, Option.bind_eq_some] at h
  obtain ⟨x, hmv, h⟩ := h
  obtain ⟨n1, p1, l1⟩ := x
  exact canonFix_some h hkey (suffixMove_some hmv h0)

theorem loop1_some {word : List Char} {p : Nat} {letter : Char} {canonFuel : Nat}
    (hp : pyGet word (p : Int) = some letter) :
    ∀ (fuel : Nat) (tree : STree) (node : Nat) (position length : Int) (prevNode : Nat)
      (t' : STree) (n' : Nat) (p' l' : Int) (pv' : Nat),
      loop1 word p letter canonFuel fuel tree node position length prevNode =
        some (t', n', p', l', pv') →
      KeyOK word tree → PosOK tree → LeafOK tree →
      Canon word tree node position length → 0 ≤ length →
      (KeyOK word t' ∧ PosOK t' ∧ LeafOK t') ∧ Canon word t' n' p' l' ∧ 0 ≤ l' ∧
        tree.length ≤ t'.length := by
  intro fuel
  induction fuel with
  | zero =>
    intro tree node position length prevNode t' n' p' l' pv' h
    rw [loop1] at h
    cases h
  | succ fuel ih =>
    intro tree node position length prevNode t' n' p' l' pv' h hkey hpos hleaf hcanon h0le
    rw [loop1] at h
    split at h
    case isFalse h0 =>
      cases h
      exact ⟨⟨hkey, hpos, hleaf⟩, hcanon, h0le, le_refl _⟩
    case isTrue h0 =>
      rw [Option.bind_eq_bind, Option.bind_eq_some] at h
      obtain ⟨cont, hcont, h⟩ := h
      split at h
      · cases h
        exact ⟨⟨hkey, hpos, hleaf⟩, hcanon, h0le, le_refl _⟩
      · next hne =>
        rw [Option.bind_eq_bind, Option.bind_eq_some] at h
        obtain ⟨c0, hc0, h⟩ := h
        rw [Option.bind_eq_bind, Option.bind_eq_some] at h
        obtain ⟨e, he, h⟩ := h
        obtain ⟨c1, e1, hc1, he1, hes1, hgt1⟩ := hcanon h0
        rw [hc0] at hc1
        obtain rfl : c1 = c0 := by cases hc1; rfl
        rw [he] at he1
        obtain rfl : e1 = e := by cases he1; rfl
        have hOK := treeOK_splitPoint node prevNode
          hkey hpos hleaf hp hcont hc0 hgt1 (transPred_lookup hleaf he) h0
        obtain ⟨hkey1, hpos1, hleaf1⟩ := hOK
        simp only [Option.bind_eq_bind, Option.bind_eq_some] at h
        obtain ⟨x, hmv, h⟩ := h
        obtain ⟨n1, p1, l1⟩ := x
        have hc2 := suffixMoveCanon_some hmv hkey1 h0
        have hres := ih _ _ _ _ _ _ _ _ _ _ h hkey1 hpos1 hleaf1 hc2.1 hc2.2
        refine ⟨hres.1, hres.2.1, hres.2.2.1, ?_⟩
        have hlen := hres.2.2.2
        rw [length_splitPoint] at hlen
        omega

end ShortUkkonen

namespace ShortUkkonen

theorem loop2_some {word : List Char} {p : Nat} {letter : Char}
    (hp : pyGet word (p : Int) = some letter) :
    ∀ (fuel : Nat) (tree : STree) (node : Nat) (length : Int) (prevNode : Nat)
      (t' : STree) (n' pv' : Nat),
      loop2 p letter fuel tree node length prevNode = some (t', n', pv') →
      KeyOK word tree → PosOK tree → LeafOK tree →
      (KeyOK word t' ∧ PosOK t' ∧ LeafOK t') ∧ (0 < length → t' = tree ∧ n' = node) ∧
        tree.length ≤ t'.length := by
  intro fuel
  induction fuel with
  | zero =>
    intro tree node length prevNode t' n' pv' h
    rw [loop2] at h
    cases h
  | succ fuel ih =>
    intro tree node length prevNode t' n' pv' h hkey hpos hleaf
    rw [loop2] at h
    split at h
    · cases h
      exact ⟨⟨hkey, hpos, hleaf⟩, fun _ => ⟨rfl, rfl⟩, le_refl _⟩
    · rw [Option.bind_eq_bind, Option.bind_eq_some] at h
      obtain ⟨nd, hnd, h⟩ := h
      split at h
      · next hcond =>
        simp only [Option.bind_eq_bind, Option.bind_eq_some] at h
        obtain ⟨nd2, hnd2, s, hs, h⟩ := h
        have hkey1 : KeyOK word (setSuffix (setTrans tree node letter ⟨(p : Int), .inf, .leaf⟩) prevNode node) :=
          transPred_setSuffix (transPred_setTrans hkey hp)
        have hpos1 : PosOK (setSuffix (setTrans tree node letter ⟨(p : Int), .inf, .leaf⟩) prevNode node) :=
          transPred_setSuffix (transPred_setTrans hpos rfl)
        have hleaf1 : LeafOK (setSuffix (setTrans tree node letter ⟨(p : Int), .inf, .leaf⟩) prevNode node) :=
          transPred_setSuffix (transPred_setTrans hleaf (fun _ => rfl))
        have hres := ih _ _ _ _ _ _ _ h hkey1 hpos1 hleaf1
        refine ⟨hres.1, fun hl => ?_, ?_⟩
        · rw [hcond.2] at hl
          exact absurd hl (by omega)
        · have hlen := hres.2.2
          rw [length_setSuffix, length_setTrans] at hlen
          exact hlen
      · cases h
        exact ⟨⟨hkey, hpos, hleaf⟩, fun _ => ⟨rfl, rfl⟩, le_refl _⟩

theorem absorbLookup_some {word : List Char} {letter : Char} {tree : STree}
    {node : Nat} {position length : Int} {prevNode : Nat} {t1 : STree} {q : Int}
    {lnc : SLen} {child : Tgt}
    (h : absorbLookup word letter tree node position length prevNode =
      some (t1, q, lnc, child))
    (hkey : KeyOK word tree) (hpos : PosOK tree) (hleaf : LeafOK tree)
    (hcanon : Canon word tree node position length) (h0le : 0 ≤ length) :
    (KeyOK word t1 ∧ PosOK t1 ∧ LeafOK t1) ∧ t1.length = tree.length ∧
    ∃ c e, pyGet word e.s = some c ∧ getTrans t1 node c = some e ∧
      e.s = q ∧ e.l = lnc ∧ e.t = child ∧ SLen.gtInt e.l length = true := by
  unfold absorbLookup at h
  split at h
  · next hlen0 =>
    subst hlen0
    rw [Option.bind_eq_bind, Option.bind_eq_some] at h
    obtain ⟨e, he, h⟩ := h
    cases h
    have hkey1 : KeyOK word (setSuffix tree prevNode node) := transPred_setSuffix hkey
    have hpos1 : PosOK (setSuffix tree prevNode node) := transPred_setSuffix hpos
    have hleaf1 : LeafOK (setSuffix tree prevNode node) := transPred_setSuffix hleaf
    refine ⟨⟨hkey1, hpos1, hleaf1⟩, length_setSuffix tree prevNode node,
      letter, e, transPred_lookup hkey1 he, he, rfl, rfl, rfl, ?_⟩
    exact transPred_lookup hpos1 he
  · next hlenne =>
    have h0 : 0 < length := by omega
    rw [Option.bind_eq_bind, Option.bind_eq_some] at h
    obtain ⟨c, hc, h⟩ := h
    rw [Option.bind_eq_bind, Option.bind_eq_some] at h
    obtain ⟨e, he, h⟩ := h
    cases h
    obtain ⟨c1, e1, hc1, he1, hes1, hgt1⟩ := hcanon h0
    rw [hc] at hc1
    obtain rfl : c = c1 := by cases hc1; rfl
    rw [he] at he1
    obtain rfl : e = e1 := by cases he1; rfl
    refine ⟨⟨hkey, hpos, hleaf⟩, rfl, c, e, ?_, he, rfl, rfl, rfl, hgt1⟩
    rw [hes1]
    exact hc

theorem phaseTail_some {word : List Char} {p : Nat} {letter : Char} {tree : STree}
    {node : Nat} {position length : Int} {prevNode : Nat} {t' : STree} {n' : Nat}
    {p' l' : Int}
    (h : phaseTail word p letter tree node position length prevNode =
      some (t', n', p', l'))
    (hp : pyGet word (p : Int) = some letter)
    (hkey : KeyOK word tree) (hpos : PosOK tree) (hleaf : LeafOK tree)
    (hcanon : Canon word tree node position length) (h0le : 0 ≤ length) :
    (KeyOK word t' ∧ PosOK t' ∧ LeafOK t') ∧ Canon word t' n' p' l' ∧ 0 ≤ l' ∧
      tree.length ≤ t'.length := by
  unfold phaseTail at h
  rw [Option.bind_eq_bind, Option.bind_eq_some] at h
  obtain ⟨ndRoot, hroot, h⟩ := h
  split at h
  · cases h
    refine ⟨⟨?_, ?_, ?_⟩, fun habs => absurd habs (by omega), le_refl 0, ?_⟩
    · exact transPred_setSuffix (transPred_setTrans hkey hp)
    · exact transPred_setSuffix (transPred_setTrans hpos rfl)
    · exact transPred_setSuffix (transPred_setTrans hleaf (fun _ => rfl))
    · rw [length_setSuffix, length_setTrans]
  · rw [Option.bind_eq_bind, Option.bind_eq_some] at h
    obtain ⟨x, habs, h⟩ := h
    obtain ⟨t1, q, lnc, child⟩ := x
    obtain ⟨⟨hkey1, hpos1, hleaf1⟩, hlen1, c, e, hce, hlook, hes, hel, het, hgt⟩ :=
      absorbLookup_some habs hkey hpos hleaf hcanon h0le
    simp only [] at h
    split at h
    · next heqI =>
      split at h
      · next v hv =>
        cases h
        exact ⟨⟨hkey1, hpos1, hleaf1⟩, fun habs2 => absurd habs2 (by omega), le_refl 0,
          le_of_eq hlen1.symm⟩
      · cases h
    · next heqI =>
      cases h
      refine ⟨⟨hkey1, hpos1, hleaf1⟩, ?_, by omega, le_of_eq hlen1.symm⟩
      intro _
      refine ⟨c, e, ?_, hlook, hes, ?_⟩
      · rw [← hes]
        exact hce
      · have hne : SLen.eqInt lnc (length + 1) = false := by simpa using heqI
        rw [hel]
        rw [hel] at hgt
        exact gtInt_succ hgt hne

end ShortUkkonen

namespace ShortUkkonen

theorem phase_some {word : List Char} {fuel : Nat} {st st' : STree × Nat × Int × Int}
    {p : Nat} (h : phase word fuel st p = some st')
    (hkey : KeyOK word st.1) (hpos : PosOK st.1) (hleaf : LeafOK st.1)
    (hcanon : Canon word st.1 st.2.1 st.2.2.1 st.2.2.2) (h0le : 0 ≤ st.2.2.2) :
    (KeyOK word st'.1 ∧ PosOK st'.1 ∧ LeafOK st'.1) ∧
    Canon word st'.1 st'.2.1 st'.2.2.1 st'.2.2.2 ∧ 0 ≤ st'.2.2.2 ∧
    st.1.length ≤ st'.1.length := by
  obtain ⟨tree, node, position, length⟩ := st
  obtain ⟨t3, n3, p3, l3⟩ := st'
  unfold phase at h
  rw [Option.bind_eq_bind, Option.bind_eq_some] at h
  obtain ⟨letter, hletter, h⟩ := h
  have hp : pyGet word (p : Int) = some letter := by
    rw [pyGet_natCast]
    exact hletter
  simp only [Option.bind_eq_bind, Option.bind_eq_some] at h
  obtain ⟨x1, hl1, h⟩ := h
  obtain ⟨t1, n1, p1, l1, pv1⟩ := x1
  obtain ⟨x2, hl2, h⟩ := h
  obtain ⟨t2, n2, pv2⟩ := x2
  obtain ⟨⟨hkey1, hpos1, hleaf1⟩, hcanon1, h0le1, hlen1⟩ :=
    loop1_some hp _ tree node position length 0 t1 n1 p1 l1 pv1 hl1
      hkey hpos hleaf hcanon h0le
  obtain ⟨⟨hkey2, hpos2, hleaf2⟩, hid2, hlen2⟩ :=
    loop2_some hp _ t1 n1 l1 pv1 t2 n2 pv2 hl2 hkey1 hpos1 hleaf1
  have hcanon2 : Canon word t2 n2 p1 l1 := by
    by_cases hl1pos : 0 < l1
    · obtain ⟨rfl, rfl⟩ := hid2 hl1pos
      exact hcanon1
    · intro habs
      exact absurd habs hl1pos
  obtain ⟨⟨hkey3, hpos3, hleaf3⟩, hcanon3, h0le3, hlen3⟩ :=
    phaseTail_some h hp hkey2 hpos2 hleaf2 hcanon2 h0le1
  refine ⟨⟨hkey3, hpos3, hleaf3⟩, hcanon3, h0le3, ?_⟩
  simp only [] at hlen3 ⊢
  omega

theorem foldlM_option_inv {σ : Type} {P : σ → Prop} {f : σ → Nat → Option σ}
    (hf : ∀ s i s', f s i = some s' → P s → P s') :
    ∀ (l : List Nat) (s s' : σ), List.foldlM f s l = some s' → P s → P s'
  | [], s, s', h, hP => by
    rw [List.foldlM_nil] at h
    cases h
    exact hP
  | i :: tl, s, s', h, hP => by
    rw [List.foldlM_cons] at h
    rw [Option.bind_eq_bind, Option.bind_eq_some] at h
    obtain ⟨s1, h1, h⟩ := h
    exact foldlM_option_inv hf tl s1 s' h (hf s i s1 h1 hP)

theorem ukkonen_some {word : List Char} {node : Nat} {position length : Int}
    {t : STree} (h : ukkonen word = some (node, position, length, t)) :
    ∃ t0 p0, t = setSuffix t0 0 0 ∧ position = (if length = 0 then 0 else p0) ∧
      StOK word (t0, node, p0, length) := by
  unfold ukkonen at h
  rw [Option.bind_eq_bind, Option.bind_eq_some] at h
  obtain ⟨x, hfold, h⟩ := h
  obtain ⟨t0, n0, p0, l0⟩ := x
  have hinv : StOK word (t0, n0, p0, l0) := by
    refine foldlM_option_inv ?_ (List.range word.length) _ _ hfold ?_
    · intro s i s' hstep hP
      obtain ⟨⟨hk, hq, hlf⟩, hc, hle, hlen⟩ := hP
      obtain ⟨⟨hk2, hq2, hlf2⟩, hc2, hle2, hlen2⟩ := phase_some hstep hk hq hlf hc hle
      exact ⟨⟨hk2, hq2, hlf2⟩, hc2, hle2, by omega⟩
    · refine ⟨⟨?_, ?_, ?_⟩, ?_, le_refl 0, by decide⟩
      · intro nd hnd ce hce
        simp only [List.mem_singleton] at hnd
        subst hnd
        simp at hce
      · intro nd hnd ce hce
        simp only [List.mem_singleton] at hnd
        subst hnd
        simp at hce
      · intro nd hnd ce hce
        simp only [List.mem_singleton] at hnd
        subst hnd
        simp at hce
      · intro habs
        exact absurd habs (by decide)
  cases h
  exact ⟨t0, p0, rfl, rfl, hinv⟩

end ShortUkkonen

/-- Claim C10: the active point returned by the short builder is normalized
for every input word: in the returned `(node, position, length, tree)`, if
`length = 0` then `position = 0`, and if `length > 0` then the transition
`tree[node][word[position]]` exists, its stored start index equals `position`,
and its stored edge length is strictly greater than `length`. -/
theorem claimC10 (w : List Char) (node : Nat) (position length : Int)
    (t : ShortUkkonen.STree)
    (h : ShortUkkonen.ukkonen w = some (node, position, length, t)) :
    (length = 0 → position = 0) ∧
    (0 < length → ∃ c e, pyGet w position = some c ∧
      ShortUkkonen.getTrans t node c = some e ∧ e.s = position ∧
      ShortUkkonen.SLen.gtInt e.l length = true) := by
  obtain ⟨t0, p0, rfl, rfl, ⟨⟨hk, hq, hlf⟩, hc, hle, hlen⟩⟩ := ShortUkkonen.ukkonen_some h
  constructor
  · intro h0
    rw [if_pos h0]
  · intro hpos
    have hne : ¬ length = 0 := by omega
    rw [if_neg hne]
    obtain ⟨c, e, hc1, he1, hes1, hgt1⟩ := hc hpos
    refine ⟨c, e, hc1, ?_, hes1, hgt1⟩
    rw [ShortUkkonen.getTrans_setSuffix]
    exact he1

/-- Claim C10 witness: the normalization facts hold of the concrete build over
`"abcabdabc"`, whose returned active point is `(1, 2, 1)`. -/
theorem claimC10_witness :
    ShortUkkonen.ukkonen "abcabdabc".toList =
      some (1, 2, 1,
        [⟨[('a', ⟨0, .fin 2, .node 1⟩), ('b', ⟨1, .fin 1, .node 2⟩), ('c', ⟨2, .inf, .leaf⟩),
           ('d', ⟨5, .inf, .leaf⟩)], some 0⟩,
         ⟨[('d', ⟨5, .inf, .leaf⟩), ('c', ⟨2, .inf, .leaf⟩)], some 2⟩,
         ⟨[('d', ⟨5, .inf, .leaf⟩), ('c', ⟨2, .inf, .leaf⟩)], some 0⟩]) ∧
    (((1 : Int) = 0 → (2 : Int) = 0) ∧
     (0 < (1 : Int) → ∃ c e, pyGet "abcabdabc".toList 2 = some c ∧
        ShortUkkonen.getTrans
          [⟨[('a', ⟨0, .fin 2, .node 1⟩), ('b', ⟨1, .fin 1, .node 2⟩), ('c', ⟨2, .inf, .leaf⟩),
             ('d', ⟨5, .inf, .leaf⟩)], some 0⟩,
           ⟨[('d', ⟨5, .inf, .leaf⟩), ('c', ⟨2, .inf, .leaf⟩)], some 2⟩,
           ⟨[('d', ⟨5, .inf, .leaf⟩), ('c', ⟨2, .inf, .leaf⟩)], some 0⟩] 1 c = some e ∧
        e.s = 2 ∧ ShortUkkonen.SLen.gtInt e.l 1 = true)) :=
  ⟨by decide, claimC10 "abcabdabc".toList 1 2 1 _ (by decide)⟩

namespace NewUkkonen

theorem liftE_ne_fuelOut {α : Type} (x : Option α) :
    liftE x ≠ Except.error NErr.fuelOut := by
  cases x <;> simp [liftE]

theorem liftE_eq_ok {α : Type} {x : Option α} {a : α} (h : liftE x = Except.ok a) :
    x = some a := by
  cases x with
  | none => exact nomatch h
  | some b =>
    simp only [liftE] at h
    cases h
    rfl

theorem except_bind_eq_error {α β : Type} {x : M α} {f : α → M β} {e : NErr}
    (h : x >>= f = .error e) :
    x = .error e ∨ ∃ a, x = .ok a ∧ f a = .error e := by
  cases x with
  | error e2 =>
    have h2 : (Except.error e2 : M β) = Except.error e := h
    cases h2
    exact Or.inl rfl
  | ok a => exact Or.inr ⟨a, rfl, h⟩

theorem edgesPos_getEdge {g : Graph} {v : Nat} {c : Char} {e : NEdge}
    (hE : EdgesPos g) (h : g.getEdge v c = some e) : e.l.geOne = true := by
  unfold Graph.getEdge at h
  rw [Option.bind_eq_bind, Option.bind_eq_some] at h
  obtain ⟨nd, hnd, h⟩ := h
  have h1 := (List.all_eq_true.mp hE) nd (List.get?_mem hnd)
  exact (List.all_eq_true.mp h1) (c, e) (lookupA_mem h)

theorem makeCanonicalLoop_ne_fuelOut :
    ∀ (fuel : Nat) (s : IState), EdgesPos s.tree → s.len.toNat < fuel →
      makeCanonicalLoop fuel s ≠ Except.error NErr.fuelOut
  | 0, s, _, hf => absurd hf (Nat.not_lt_zero _)
  | fuel + 1, s, hE, hf => by
    intro h
    simp only [makeCanonicalLoop] at h
    rcases except_bind_eq_error h with h | ⟨c, hc, h⟩
    · exact liftE_ne_fuelOut _ h
    rcases except_bind_eq_error h with h | ⟨e, he, h⟩
    · exact liftE_ne_fuelOut _ h
    have he2 : s.tree.getEdge s.label c = some e := liftE_eq_ok he
    split at h
    · next hlt =>
      split at h
      · next m v heq1 heq2 =>
        have hm1 : (1 : Int) ≤ m := by
          have := edgesPos_getEdge hE he2
          rw [heq1] at this
          simpa [NLen.geOne] using this
        have hm2 : m < s.len := by
          rw [heq1] at hlt
          simpa [NLen.ltInt] using hlt
        refine makeCanonicalLoop_ne_fuelOut fuel (s.move v (s.pos + m) (s.len - m)) hE ?_ h
        show (s.len - m).toNat < fuel
        omega
      · next => simp at h
    · next =>
      split at h
      · next hne heqq =>
        split at h
        · next => exact nomatch h
        · next => simp at h
      · next => exact nomatch h

end NewUkkonen

/-- Claim C9: `make_canonical` terminates on every implicit point whose tree
has only edges of length at least one: given more fuel than the current
`len`, the canonization loop never exhausts its fuel; moreover each hop the
loop takes consumes an edge of length `m` with `1 ≤ m < len`, so the
remaining `len` strictly decreases. -/
theorem claimC9 (fuel : Nat) (s : NewUkkonen.IState)
    (hE : NewUkkonen.EdgesPos s.tree) (hf : s.len.toNat < fuel) :
    s.makeCanonical fuel ≠ Except.error NewUkkonen.NErr.fuelOut ∧
    (∀ c e m, pyGet s.word s.pos = some c →
      s.tree.getEdge s.label c = some e →
      e.l = NewUkkonen.NLen.fin m → NewUkkonen.NLen.ltInt e.l s.len = true →
      1 ≤ m ∧ s.len - m < s.len) := by
  constructor
  · unfold NewUkkonen.IState.makeCanonical
    split
    · exact fun h => nomatch h
    · exact NewUkkonen.makeCanonicalLoop_ne_fuelOut fuel s hE hf
  · intro c e m hc he heq hlt
    have hm1 : (1 : Int) ≤ m := by
      have := NewUkkonen.edgesPos_getEdge hE he
      rw [heq] at this
      simpa [NewUkkonen.NLen.geOne] using this
    have hm2 : m < s.len := by
      rw [heq] at hlt
      simpa [NewUkkonen.NLen.ltInt] using hlt
    exact ⟨hm1, by omega⟩

/-- Claim C9 witness: on a concrete two-edge tree with an implicit point of
remaining length 2, canonization with fuel 3 does not run out of fuel. -/
theorem claimC9_witness :
    NewUkkonen.IState.makeCanonical 3
      ⟨"abb".toList,
       ⟨0, [⟨[('a', ⟨0, .fin 1, .node 1⟩)], none⟩, ⟨[('b', ⟨1, .fin 5, .leaf⟩)], none⟩]⟩,
       0, 0, 0, 2, .fin 3⟩ ≠ Except.error NewUkkonen.NErr.fuelOut :=
  (claimC9 3
    ⟨"abb".toList,
     ⟨0, [⟨[('a', ⟨0, .fin 1, .node 1⟩)], none⟩, ⟨[('b', ⟨1, .fin 5, .leaf⟩)], none⟩]⟩,
     0, 0, 0, 2, .fin 3⟩ (by rfl) (by decide)).1

theorem except_bind_ok {ε α β : Type} {x : Except ε α} {f : α → Except ε β} {b : β}
    (h : x >>= f = .ok b) : ∃ a, x = .ok a ∧ f a = .ok b := by
  cases x with
  | error e =>
    have h2 : (Except.error e : Except ε β) = .ok b := h
    exact nomatch h2
  | ok a => exact ⟨a, rfl, h⟩

theorem foldlM_except_inv {ε σ : Type} {P : σ → Prop} {f : σ → Nat → Except ε σ}
    (hf : ∀ s i s', f s i = .ok s' → P s → P s') :
    ∀ (l : List Nat) (s s' : σ), List.foldlM f s l = .ok s' → P s → P s'
  | [], s, s', h, hP => by
    rw [List.foldlM_nil] at h
    cases h
    exact hP
  | i :: tl, s, s', h, hP => by
    rw [List.foldlM_cons] at h
    obtain ⟨s1, h1, h⟩ := except_bind_ok h
    exact foldlM_except_inv hf tl s1 s' h (hf s i s1 h1 hP)

namespace NewUkkonen

theorem gok_setEdge {g : Graph} (v : Nat) (c : Char) (e : NEdge) (h : GOk g) :
    GOk (g.setEdge v c e) := by
  obtain ⟨h1, h2⟩ := h
  refine ⟨h1, ?_⟩
  show 0 < (updAt g.adjacencies v _).length
  rw [length_updAt]
  exact h2

theorem gok_setSuffix {g : Graph} (v s : Nat) (h : GOk g) :
    GOk (g.setSuffix v s) := by
  obtain ⟨h1, h2⟩ := h
  refine ⟨h1, ?_⟩
  show 0 < (updAt g.adjacencies v _).length
  rw [length_updAt]
  exact h2

theorem gok_addVertex {g : Graph} (h : GOk g) : GOk g.addVertex.2 := by
  obtain ⟨h1, h2⟩ := h
  refine ⟨h1, ?_⟩
  show 0 < (g.adjacencies ++ [(⟨[], none⟩ : NNode)]).length
  rw [List.length_append]
  omega


theorem makeCanonicalLoop_tree_eq :
    ∀ (fuel : Nat) (s s' : IState), makeCanonicalLoop fuel s = .ok s' →
      s'.tree = s.tree
  | 0, _, _, h => nomatch h
  | fuel + 1, s, s', h => by
    simp only [makeCanonicalLoop] at h
    obtain ⟨c, hc, h⟩ := except_bind_ok h
    obtain ⟨e, he, h⟩ := except_bind_ok h
    split at h
    · split at h
      · next m v heq1 heq2 =>
        exact Eq.trans (makeCanonicalLoop_tree_eq fuel (s.move v (s.pos + m) (s.len - m)) s' h) rfl
      · next => exact nomatch h
    · split at h
      · split at h
        · next v heq =>
          have h2 : (Except.ok (s.move v 0 0) : M IState) = .ok s' := h
          cases h2
          rfl
        · next => exact nomatch h
      · have h2 : (Except.ok s : M IState) = .ok s' := h
        cases h2
        rfl

theorem makeCanonical_tree_eq (fuel : Nat) (s s' : IState)
    (h : IState.makeCanonical fuel s = .ok s') : s'.tree = s.tree := by
  unfold IState.makeCanonical at h
  split at h
  · have h2 : (Except.ok s : M IState) = .ok s' := h
    cases h2
    rfl
  · exact makeCanonicalLoop_tree_eq fuel s s' h

theorem moveToSuffix_tree_eq (fuel : Nat) (s s' : IState)
    (h : IState.moveToSuffix fuel s = .ok s') : s'.tree = s.tree := by
  unfold IState.moveToSuffix at h
  simp only [] at h
  split at h
  · obtain ⟨s1, h1, h2⟩ := except_bind_ok h
    have h3 : (Except.ok _ : M IState) = .ok s1 := h1
    cases h3
    exact Eq.trans (makeCanonical_tree_eq fuel _ s' h2) rfl
  · obtain ⟨sfx, hsfx, h⟩ := except_bind_ok h
    obtain ⟨s1, h1, h2⟩ := except_bind_ok h
    have h3 : (Except.ok _ : M IState) = .ok s1 := h1
    cases h3
    exact Eq.trans (makeCanonical_tree_eq fuel _ s' h2) rfl

theorem elongate_tree_eq (fuel : Nat) (s s' : IState) (p : Nat)
    (h : IState.elongate fuel s p = .ok s') : s'.tree = s.tree := by
  unfold IState.elongate at h
  split at h
  · exact Eq.trans (makeCanonical_tree_eq fuel _ s' h) rfl
  · exact Eq.trans (makeCanonical_tree_eq fuel _ s' h) rfl

theorem gok_addExplicit {s : IState} {v : Nat} {s' : IState}
    (h : s.addExplicit = .ok (v, s')) (hg : GOk s.tree) : GOk s'.tree := by
  unfold IState.addExplicit at h
  split at h
  · have h2 : (Except.ok (s.label, s) : M (Nat × IState)) = .ok (v, s') := h
    cases h2
    exact hg
  · obtain ⟨c0, hc0, h⟩ := except_bind_ok h
    obtain ⟨e, he, h⟩ := except_bind_ok h
    simp only [Graph.addVertex] at h
    obtain ⟨cp, hcp, h⟩ := except_bind_ok h
    obtain ⟨cq, hcq, h⟩ := except_bind_ok h
    have h2 : (Except.ok _ : M (Nat × IState)) = .ok (v, s') := h
    cases h2
    exact gok_setEdge _ _ _ (gok_setEdge _ _ _ (gok_addVertex hg))

theorem gok_addLeaf {s : IState} {p v : Nat} {s' : IState}
    (h : s.addLeaf p = .ok (v, s')) (hg : GOk s.tree) : GOk s'.tree := by
  unfold IState.addLeaf at h
  obtain ⟨⟨v1, s1⟩, h1, h⟩ := except_bind_ok h
  obtain ⟨c, hc, h⟩ := except_bind_ok h
  have h2 : (Except.ok _ : M (Nat × IState)) = .ok (v, s') := h
  cases h2
  exact gok_setEdge _ _ _ (gok_addExplicit h1 hg)

theorem gok_ukkonenLoop :
    ∀ (loopFuel fuel p : Nat) (s : IState) (es : Nat) (s' : IState) (es' : Nat),
      ukkonenLoop fuel p loopFuel s es = .ok (s', es') → GOk s.tree → GOk s'.tree
  | 0, _, _, _, _, _, _, h, _ => nomatch h
  | loopFuel + 1, fuel, p, s, es, s', es', h, hg => by
    simp only [ukkonenLoop] at h
    obtain ⟨ht, hht, h⟩ := except_bind_ok h
    split at h
    · obtain ⟨⟨nes, s1⟩, h1, h⟩ := except_bind_ok h
      obtain ⟨s2, h2, h⟩ := except_bind_ok h
      refine gok_ukkonenLoop loopFuel fuel p s2 nes s' es' h ?_
      rw [moveToSuffix_tree_eq fuel _ s2 h2]
      show GOk (s1.tree.setSuffix es nes)
      exact gok_setSuffix _ _ (gok_addLeaf h1 hg)
    · have h2 : (Except.ok (s, es) : M (IState × Nat)) = .ok (s', es') := h
      cases h2
      exact hg

theorem gok_ukkonenPhase {fuel : Nat} {s : IState} {p : Nat} {s' : IState}
    (h : ukkonenPhase fuel s p = .ok s') (hg : GOk s.tree) : GOk s'.tree := by
  unfold ukkonenPhase at h
  obtain ⟨ht, hht, h⟩ := except_bind_ok h
  split at h
  · rw [elongate_tree_eq fuel s s' p h]
    exact hg
  · split at h
    · obtain ⟨⟨v1, s1⟩, h1, h⟩ := except_bind_ok h
      have h2 : (Except.ok s1 : M IState) = .ok s' := h
      cases h2
      exact gok_addLeaf h1 hg
    · obtain ⟨⟨es1, s1⟩, h1, h⟩ := except_bind_ok h
      obtain ⟨s2, h2, h⟩ := except_bind_ok h
      obtain ⟨⟨s3, es3⟩, h3, h⟩ := except_bind_ok h
      have hg3 : GOk s3.tree := by
        refine gok_ukkonenLoop fuel fuel p s2 es1 s3 es3 h3 ?_
        rw [moveToSuffix_tree_eq fuel s1 s2 h2]
        exact gok_addLeaf h1 hg
      obtain ⟨ht2, hht2, h⟩ := except_bind_ok h
      split at h
      · rw [elongate_tree_eq fuel _ s' p h]
        show GOk (s3.tree.setSuffix es3 s3.label)
        exact gok_setSuffix _ _ hg3
      · obtain ⟨⟨v4, s4⟩, h4, h⟩ := except_bind_ok h
        have h5 : (Except.ok s4 : M IState) = .ok s' := h
        cases h5
        refine gok_addLeaf h4 ?_
        show GOk (s3.tree.setSuffix es3 s3.root)
        exact gok_setSuffix _ _ hg3

end NewUkkonen

/-- Claim C8 (amended): in `new_ukkonen.py` the root vertex is created first
by the graph constructor, has index 0, is the only vertex at creation, and
is still present with index 0 in the tree returned by every successful
build.  (`ukkonen.py` instead numbers its root 1, below an auxiliary bottom
vertex 0, as the counterexample shows.) -/
theorem claimC8 (w : List Char) (s : NewUkkonen.IState)
    (h : NewUkkonen.ukkonen w = Except.ok s) :
    NewUkkonen.Graph.init.root = 0 ∧ NewUkkonen.Graph.init.numVertices = 1 ∧
    s.tree.root = 0 ∧ 0 < s.tree.numVertices := by
  have hg : NewUkkonen.GOk s.tree := by
    unfold NewUkkonen.ukkonen at h
    have hstep : ∀ (s1 : NewUkkonen.IState) (i : Nat) (s2 : NewUkkonen.IState),
        NewUkkonen.ukkonenPhase (NewUkkonen.fuelFor w) s1 i = .ok s2 →
        NewUkkonen.GOk s1.tree → NewUkkonen.GOk s2.tree :=
      fun _ _ _ a b => NewUkkonen.gok_ukkonenPhase a b
    have hfold : ∀ (l : List Nat) (a b : NewUkkonen.IState),
        List.foldlM (NewUkkonen.ukkonenPhase (NewUkkonen.fuelFor w)) a l = .ok b →
        NewUkkonen.GOk a.tree → NewUkkonen.GOk b.tree :=
      foldlM_except_inv hstep
    exact hfold (List.range w.length) (NewUkkonen.IState.init w) s h ⟨rfl, Nat.zero_lt_one⟩
  exact ⟨rfl, rfl, hg.1, hg.2⟩

/-- Claim C8 witness: the build over `"a"` succeeds with the concrete state
below, whose tree has root index 0 and a nonempty vertex arena. -/
theorem claimC8_witness :
    NewUkkonen.ukkonen "a".toList =
      Except.ok ⟨"a".toList, ⟨0, [⟨[('a', ⟨0, .fin 1, .leaf⟩)], none⟩]⟩, 0, 0, 0, 0, .fin 1⟩ ∧
    (NewUkkonen.Graph.init.root = 0 ∧ NewUkkonen.Graph.init.numVertices = 1 ∧
     (⟨"a".toList, ⟨0, [⟨[('a', ⟨0, .fin 1, .leaf⟩)], none⟩]⟩, 0, 0, 0, 0,
       .fin 1⟩ : NewUkkonen.IState).tree.root = 0 ∧
     0 < (⟨"a".toList, ⟨0, [⟨[('a', ⟨0, .fin 1, .leaf⟩)], none⟩]⟩, 0, 0, 0, 0,
       .fin 1⟩ : NewUkkonen.IState).tree.numVertices) :=
  ⟨by rfl, claimC8 "a".toList _ (by rfl)⟩

/-- Claim C6 (amended): for the short builder and for `new_ukkonen.py` the
boundary behaviour is as claimed — the empty word builds without error a
tree holding only the edgeless root, and any single-symbol word builds
exactly one leaf edge off the root.  `ukkonen.py` also accepts the empty
word without error, but its returned tree holds two vertices (the auxiliary
bottom vertex with its 26 alphabet transitions, and the root), not only the
root, as the counterexample shows. -/
theorem claimC6 :
    ShortUkkonen.ukkonen [] = some (0, 0, 0, [⟨[], some 0⟩]) ∧
    (∀ c : Char, ShortUkkonen.ukkonen [c] =
      some (0, 0, 0, [⟨[(c, ⟨0, .inf, .leaf⟩)], some 0⟩])) ∧
    NewUkkonen.ukkonen [] = Except.ok (NewUkkonen.IState.init []) ∧
    (∀ c : Char, NewUkkonen.ukkonen [c] =
      Except.ok ⟨[c], ⟨0, [⟨[(c, ⟨0, .fin 1, .leaf⟩)], none⟩]⟩, 0, 0, 0, 0, .fin 1⟩) ∧
    UkkonenPy.ukkonen [] = Except.ok UkkonenPy.initTree ∧
    UkkonenPy.initTree.length = 2 :=
  ⟨rfl, fun _ => rfl, rfl, fun _ => rfl, rfl, rfl⟩

namespace UkkonenPy

theorem buildLoop_eq (word : List Char) (fuel : Nat) :
    ∀ (r i : Nat) (acc : PTree × Nat × Int),
      buildLoop word fuel i r acc =
        (List.range' i r).foldlM (phaseStep word fuel) acc
  | 0, i, acc => by
    simp only [buildLoop, List.range', List.foldlM_nil]
  | r + 1, i, acc => by
    rw [List.range'_succ, List.foldlM_cons]
    simp only [buildLoop]
    exact congrArg (Bind.bind (phaseStep word fuel acc i))
      (funext fun a => buildLoop_eq word fuel r (i + 1) a)

end UkkonenPy

/-- Claim C5 (amended): for `ukkonen.py`, building the whole word at once
and driving the single-phase entry points (`update` then `canonize`) phase
by phase over the same full word produce identical results — not merely
structurally identical trees.  (The equivalence claimed across builders and
for streaming use fails, as the counterexample shows: feeding each phase
only the prefix read so far crashes, and the builders disagree on vertex
counts.) -/
theorem claimC5 (w : List Char) : UkkonenPy.ukkonen w = UkkonenPy.phaseByPhase w := by
  unfold UkkonenPy.ukkonen UkkonenPy.phaseByPhase
  rw [UkkonenPy.buildLoop_eq, List.range_eq_range']

theorem lookupA_setA_self {α : Type} :
    ∀ (l : List (Char × α)) (c : Char) (a : α), lookupA (setA l c a) c = some a
  | [], c, a => by
    rw [setA, lookupA, if_pos rfl]
  | (d, b) :: tl, c, a => by
    rw [setA]
    split
    · next heq => rw [lookupA, if_pos heq]
    · next hne =>
      rw [lookupA]
      split
      · next heq2 => exact absurd heq2 hne
      · exact lookupA_setA_self tl c a

theorem lookupA_setA_ne {α : Type} :
    ∀ (l : List (Char × α)) (c d : Char) (a : α), c ≠ d →
      lookupA (setA l d a) c = lookupA l c
  | [], c, d, a, h => by
    show (if d = c then some a else lookupA [] c) = lookupA [] c
    rw [if_neg (Ne.symm h)]
  | (e0, b) :: tl, c, d, a, h => by
    rw [setA]
    split
    · next heq =>
      subst heq
      show (if e0 = c then some a else lookupA tl c) =
        (if e0 = c then some b else lookupA tl c)
      rw [if_neg (Ne.symm h), if_neg (Ne.symm h)]
    · next hne =>
      show (if e0 = c then some b else lookupA (setA tl d a) c) =
        (if e0 = c then some b else lookupA tl c)
      by_cases hc : e0 = c
      · rw [if_pos hc, if_pos hc]
      · rw [if_neg hc, if_neg hc]
        exact lookupA_setA_ne tl c d a h

theorem get?_some_lt {α : Type} {l : List α} {i : Nat} {a : α}
    (h : l.get? i = some a) : i < l.length := by
  by_contra hc
  rw [List.get?_eq_none.mpr (by omega)] at h
  cases h

namespace ShortUkkonen

theorem getTrans_setTrans_self (t : STree) (v : Nat) (c : Char) (e : SEdge)
    (hv : v < t.length) : getTrans (setTrans t v c e) v c = some e := by
  unfold getTrans setTrans
  rw [get?_updAt, if_pos rfl]
  cases hnd : t.get? v with
  | none => exact absurd (List.get?_eq_none.mp hnd) (by omega)
  | some nd =>
    show lookupA (setA nd.trans c e) c = some e
    exact lookupA_setA_self nd.trans c e

theorem splitPoint_leaf (p : Nat) (letter cont c0 : Char) (e : SEdge)
    (t : STree) (v : Nat) (pos len2 : Int) (pv : Nat)
    (hne : letter ≠ cont) (hv : v < t.length) :
    getTrans (splitPoint p letter cont c0 e t v pos len2 pv) t.length letter =
      some ⟨(p : Int), .inf, .leaf⟩ := by
  unfold splitPoint
  simp only []
  rw [getTrans_setSuffix]
  unfold getTrans setTrans
  rw [get?_updAt, if_neg (by omega), List.get?_concat_length]
  show lookupA
      (setA (setA ([] : List (Char × SEdge)) letter ⟨(p : Int), .inf, .leaf⟩)
        cont ⟨pos + len2, e.l.subInt len2, e.t⟩) letter = some ⟨(p : Int), .inf, .leaf⟩
  rw [lookupA_setA_ne _ _ _ _ hne]
  exact lookupA_setA_self _ _ _

end ShortUkkonen

namespace UkkonenPy

theorem getTrans_setTrans_self_py (t : PTree) (v : Nat) (c : Char) (e : PEdge)
    (hv : v < t.length) : getTrans (setTrans t v c e) v c = .ok e := by
  unfold getTrans setTrans
  rw [get?_updAt, if_pos rfl]
  cases hnd : t.get? v with
  | none => exact absurd (List.get?_eq_none.mp hnd) (by omega)
  | some nd =>
    show liftK (lookupA (setA nd.trans c e) c) = Except.ok e
    rw [lookupA_setA_self]
    rfl

end UkkonenPy

namespace NewUkkonen

theorem getEdge_setEdge_self (g : Graph) (v : Nat) (c : Char) (e : NEdge)
    (hv : v < g.adjacencies.length) : (g.setEdge v c e).getEdge v c = some e := by
  unfold Graph.getEdge Graph.setEdge
  show (updAt g.adjacencies v _).get? v >>= _ = some e
  rw [get?_updAt, if_pos rfl]
  cases hnd : g.adjacencies.get? v with
  | none => exact absurd (List.get?_eq_none.mp hnd) (by omega)
  | some nd =>
    show lookupA (setA nd.trans c e) c = some e
    exact lookupA_setA_self nd.trans c e

theorem addExplicit_basic {s : IState} {v1 : Nat} {s1 : IState}
    (hlab : s.label < s.tree.adjacencies.length)
    (h : s.addExplicit = .ok (v1, s1)) :
    s1.word = s.word ∧ s1.leafsLength = s.leafsLength ∧
    v1 < s1.tree.adjacencies.length := by
  unfold IState.addExplicit at h
  split at h
  · have h2 : (Except.ok (s.label, s) : M (Nat × IState)) = .ok (v1, s1) := h
    cases h2
    exact ⟨rfl, rfl, hlab⟩
  · obtain ⟨c0, hc0, h⟩ := except_bind_ok h
    obtain ⟨e, he, h⟩ := except_bind_ok h
    simp only [Graph.addVertex] at h
    obtain ⟨cp, hcp, h⟩ := except_bind_ok h
    obtain ⟨cq, hcq, h⟩ := except_bind_ok h
    have h2 : (Except.ok _ : M (Nat × IState)) = .ok (v1, s1) := h
    cases h2
    refine ⟨rfl, rfl, ?_⟩
    simp only [Graph.setEdge, length_updAt, List.length_append, List.length_singleton]
    omega

theorem addLeaf_start {s : IState} {p v : Nat} {s' : IState}
    (hlab : s.label < s.tree.adjacencies.length)
    (h : IState.addLeaf s p = .ok (v, s')) :
    ∃ c, s.word.get? p = some c ∧
      s'.tree.getEdge v c =
        some ⟨(p : Int), NLen.subInt s.leafsLength (p : Int), .leaf⟩ := by
  unfold IState.addLeaf at h
  obtain ⟨⟨v1, s1⟩, h1, h⟩ := except_bind_ok h
  obtain ⟨hw, hl, hv1⟩ := addExplicit_basic hlab h1
  obtain ⟨c, hc, h⟩ := except_bind_ok h
  have hc2 : s1.word.get? p = some c := liftE_eq_ok hc
  have h2 : (Except.ok _ : M (Nat × IState)) = .ok (v, s') := h
  cases h2
  refine ⟨c, by rw [← hw]; exact hc2, ?_⟩
  show (s1.tree.setEdge v c
      ⟨(p : Int), NLen.subInt s1.leafsLength (p : Int), NTgt.leaf⟩).getEdge v c =
    some ⟨(p : Int), NLen.subInt s.leafsLength (p : Int), NTgt.leaf⟩
  rw [hl]
  exact getEdge_setEdge_self s1.tree v c _ hv1

end NewUkkonen

/-- Claim C4 (amended): the start-index half of the claim holds of all three
builders: every leaf-attachment in every phase stores `start = i` for the
current phase index `i` — `short_ukkonen.py`'s split writes the new node's
phase-`p` leaf as `(p, inf, 'leaf')` and its direct leaf writes are
`tree[node][letter] = (p, inf, 'leaf')`; `ukkonen.py` writes
`tree[r][word[i]] = (i, len(word)-1, rr)`; `new_ukkonen.py`'s `add_leaf`
stores `(position, leafs_length - position, LEAF)`.  The open end-kind half
holds of the short builder on every word (all leaf transitions carry
`math.inf`, so each effective substring runs from its start to the current
end of the processed word), and of `new_ukkonen.py` only under its
`'infinity'` configuration (`inf - position = inf`); by default
`new_ukkonen.py` stores the fixed length `len(word) - start` and
`ukkonen.py` the fixed end `len(word) - 1`, as the counterexample shows. -/
theorem claimC4 (w : List Char) (node : Nat) (position length : Int)
    (t : ShortUkkonen.STree)
    (h : ShortUkkonen.ukkonen w = some (node, position, length, t)) :
    ShortUkkonen.LeafOK t ∧
    (∀ nd ∈ t, ∀ ce ∈ nd.trans, ce.2.t = ShortUkkonen.Tgt.leaf →
      ShortUkkonen.resolveEdge w ce.2 = w.drop ce.2.s.toNat) ∧
    (∀ (t2 : ShortUkkonen.STree) (v : Nat) (c : Char) (p : Nat), v < t2.length →
      ShortUkkonen.getTrans
          (ShortUkkonen.setTrans t2 v c ⟨(p : Int), .inf, .leaf⟩) v c =
        some ⟨(p : Int), .inf, .leaf⟩) ∧
    (∀ (p : Nat) (letter cont c0 : Char) (e : ShortUkkonen.SEdge)
      (t2 : ShortUkkonen.STree) (v : Nat) (pos len2 : Int) (pv : Nat),
      letter ≠ cont → v < t2.length →
      ShortUkkonen.getTrans
          (ShortUkkonen.splitPoint p letter cont c0 e t2 v pos len2 pv)
          t2.length letter =
        some ⟨(p : Int), .inf, .leaf⟩) ∧
    (∀ (t2 : UkkonenPy.PTree) (r : Nat) (c : Char) (i rr : Nat) (en : Int),
      r < t2.length →
      UkkonenPy.getTrans (UkkonenPy.setTrans t2 r c ⟨(i : Int), en, rr⟩) r c =
        Except.ok ⟨(i : Int), en, rr⟩) ∧
    (∀ (s : NewUkkonen.IState) (p v : Nat) (s' : NewUkkonen.IState),
      s.label < s.tree.adjacencies.length →
      NewUkkonen.IState.addLeaf s p = Except.ok (v, s') →
      ∃ c, s.word.get? p = some c ∧
        s'.tree.getEdge v c =
          some ⟨(p : Int), NewUkkonen.NLen.subInt s.leafsLength (p : Int), .leaf⟩) ∧
    (∀ i : Int, NewUkkonen.NLen.subInt NewUkkonen.NLen.inf i = NewUkkonen.NLen.inf) := by
  have hlf : ShortUkkonen.LeafOK t := by
    obtain ⟨t0, p0, rfl, -, ⟨⟨-, -, hlf0⟩, -, -, -⟩⟩ := ShortUkkonen.ukkonen_some h
    exact ShortUkkonen.transPred_setSuffix hlf0
  refine ⟨hlf, ?_, ?_, ?_, ?_, ?_, fun _ => rfl⟩
  · intro nd hnd ce hce hleaf
    have hinf : ce.2.l = .inf := hlf nd hnd ce hce hleaf
    rw [ShortUkkonen.resolveEdge, hinf]
  · intro t2 v c p hv
    exact ShortUkkonen.getTrans_setTrans_self t2 v c _ hv
  · intro p letter cont c0 e t2 v pos len2 pv hne hv
    exact ShortUkkonen.splitPoint_leaf p letter cont c0 e t2 v pos len2 pv hne hv
  · intro t2 r c i rr en hr
    exact UkkonenPy.getTrans_setTrans_self_py t2 r c _ hr
  · intro s p v s' hlab hadd
    exact NewUkkonen.addLeaf_start hlab hadd

/-- Claim C4 witness: the short build over `"ab"` returns the concrete tree
below, and every leaf transition in it is open-ended. -/
theorem claimC4_witness :
    ShortUkkonen.ukkonen "ab".toList =
      some (0, 0, 0, [⟨[('a', ⟨0, .inf, .leaf⟩), ('b', ⟨1, .inf, .leaf⟩)], some 0⟩]) ∧
    ShortUkkonen.LeafOK [⟨[('a', ⟨0, .inf, .leaf⟩), ('b', ⟨1, .inf, .leaf⟩)], some 0⟩] :=
  ⟨by decide, (claimC4 "ab".toList 0 0 0 _ (by decide)).1⟩

namespace NewUkkonen

theorem suffix_updAt_pres {l : List NNode} {v : Nat} {f : NNode → NNode}
    {i : Nat} {nd : NNode}
    (h : (updAt l v f).get? i = some nd)
    (hf : ∀ nd, (f nd).suffix = nd.suffix) :
    ∃ nd0, l.get? i = some nd0 ∧ nd.suffix = nd0.suffix := by
  rw [get?_updAt] at h
  split at h
  · next heq =>
    subst heq
    cases hnd0 : l.get? i with
    | none => rw [hnd0] at h; cases h
    | some nd0 =>
      rw [hnd0] at h
      cases h
      exact ⟨nd0, rfl, hf nd0⟩
  · exact ⟨nd, h, rfl⟩

theorem stE_of_st {g : Graph} (x : Nat) (h : SuffixTotal g) : SuffixTotalE g x :=
  fun i nd hg hr _ => h i nd hg hr

theorem stE2_of_stE {g : Graph} {x : Nat} (y : Nat) (h : SuffixTotalE g x) :
    SuffixTotalE2 g x y :=
  fun i nd hg hr hx _ => h i nd hg hr hx

theorem stE_of_stE2_same {g : Graph} {x : Nat} (h : SuffixTotalE2 g x x) :
    SuffixTotalE g x :=
  fun i nd hg hr hx => h i nd hg hr hx hx

theorem st_setEdge (v : Nat) (c : Char) (e : NEdge) {g : Graph}
    (h : SuffixTotal g) : SuffixTotal (g.setEdge v c e) := by
  intro i nd hg hr
  have hg2 : (updAt g.adjacencies v
      fun nd => ⟨setA nd.trans c e, nd.suffix⟩).get? i = some nd := hg
  obtain ⟨nd0, h0, hs⟩ := suffix_updAt_pres hg2 (fun _ => rfl)
  rw [hs]
  exact h i nd0 h0 hr

theorem stE2_setEdge (v : Nat) (c : Char) (e : NEdge) {g : Graph} {x y : Nat}
    (h : SuffixTotalE2 g x y) : SuffixTotalE2 (g.setEdge v c e) x y := by
  intro i nd hg hr hx hy
  have hg2 : (updAt g.adjacencies v
      fun nd => ⟨setA nd.trans c e, nd.suffix⟩).get? i = some nd := hg
  obtain ⟨nd0, h0, hs⟩ := suffix_updAt_pres hg2 (fun _ => rfl)
  rw [hs]
  exact h i nd0 h0 hr hx hy

theorem stE2_setSuffix_fix (s : Nat) {g : Graph} {x y : Nat}
    (h : SuffixTotalE2 g x y) : SuffixTotalE (g.setSuffix x s) y := by
  intro i nd hg hr hy
  have hg2 : (updAt g.adjacencies x
      fun nd => ⟨nd.trans, some s⟩).get? i = some nd := hg
  rw [get?_updAt] at hg2
  split at hg2
  · next heq =>
    subst heq
    cases hnd0 : g.adjacencies.get? i with
    | none => rw [hnd0] at hg2; cases hg2
    | some nd0 =>
      rw [hnd0] at hg2
      cases hg2
      rfl
  · next hne => exact h i nd hg2 hr hne hy

theorem stE_setSuffix_fix (s : Nat) {g : Graph} {x : Nat}
    (h : SuffixTotalE g x) : SuffixTotal (g.setSuffix x s) := by
  intro i nd hg hr
  have hg2 : (updAt g.adjacencies x
      fun nd => ⟨nd.trans, some s⟩).get? i = some nd := hg
  rw [get?_updAt] at hg2
  split at hg2
  · next heq =>
    subst heq
    cases hnd0 : g.adjacencies.get? i with
    | none => rw [hnd0] at hg2; cases hg2
    | some nd0 =>
      rw [hnd0] at hg2
      cases hg2
      rfl
  · next hne => exact h i nd hg2 hr hne

theorem stE2_addVertex {g : Graph} {x : Nat} (h : SuffixTotalE g x) :
    SuffixTotalE2 g.addVertex.2 x g.adjacencies.length := by
  intro i nd hg hr hx hy
  have hg2 : (g.adjacencies ++ [(⟨[], none⟩ : NNode)]).get? i = some nd := hg
  have hilt : i < g.adjacencies.length := by
    have hi := get?_some_lt hg2
    rw [List.length_append, List.length_singleton] at hi
    omega
  rw [List.get?_append hilt] at hg2
  exact h i nd hg2 hr hx

theorem addExplicit_stE {s : IState} {v1 : Nat} {s1 : IState} {x : Nat}
    (h : s.addExplicit = .ok (v1, s1)) (hE : SuffixTotalE s.tree x) :
    SuffixTotalE2 s1.tree x v1 := by
  unfold IState.addExplicit at h
  split at h
  · have h2 : (Except.ok (s.label, s) : M (Nat × IState)) = .ok (v1, s1) := h
    cases h2
    exact stE2_of_stE _ hE
  · obtain ⟨c0, hc0, h⟩ := except_bind_ok h
    obtain ⟨e, he, h⟩ := except_bind_ok h
    simp only [Graph.addVertex] at h
    obtain ⟨cp, hcp, h⟩ := except_bind_ok h
    obtain ⟨cq, hcq, h⟩ := except_bind_ok h
    have h2 : (Except.ok _ : M (Nat × IState)) = .ok (v1, s1) := h
    cases h2
    exact stE2_setEdge _ _ _ (stE2_setEdge _ _ _ (stE2_addVertex hE))

theorem addLeaf_stE {s : IState} {p v : Nat} {s1 : IState} {x : Nat}
    (h : s.addLeaf p = .ok (v, s1)) (hE : SuffixTotalE s.tree x) :
    SuffixTotalE2 s1.tree x v := by
  unfold IState.addLeaf at h
  obtain ⟨⟨v1, s2⟩, h1, h⟩ := except_bind_ok h
  obtain ⟨c, hc, h⟩ := except_bind_ok h
  have h2 : (Except.ok _ : M (Nat × IState)) = .ok (v, s1) := h
  cases h2
  exact stE2_setEdge _ _ _ (addExplicit_stE h1 hE)

theorem isRoot_isExplicit {s : IState} (h : s.isRoot = true) :
    s.isExplicit = true := by
  simp only [IState.isRoot, decide_eq_true_eq] at h
  simp [IState.isExplicit, h.2.2]

theorem addExplicit_of_explicit {s : IState} (hx : s.isExplicit = true) :
    s.addExplicit = .ok (s.label, s) := by
  unfold IState.addExplicit
  rw [if_pos hx]
  rfl

theorem addLeaf_explicit_st {s : IState} {p v : Nat} {s1 : IState}
    (hx : s.isExplicit = true) (h : s.addLeaf p = .ok (v, s1))
    (hT : SuffixTotal s.tree) : SuffixTotal s1.tree := by
  unfold IState.addLeaf at h
  rw [addExplicit_of_explicit hx] at h
  obtain ⟨⟨v1, s2⟩, h1, h⟩ := except_bind_ok h
  have h1b : (Except.ok (s.label, s) : M (Nat × IState)) = .ok (v1, s2) := h1
  cases h1b
  obtain ⟨c, hc, h⟩ := except_bind_ok h
  have h2 : (Except.ok _ : M (Nat × IState)) = .ok (v, s1) := h
  cases h2
  exact st_setEdge _ _ _ hT

theorem ukkonenLoop_st :
    ∀ (loopFuel fuel p : Nat) (s : IState) (es : Nat) (s' : IState) (es' : Nat),
      ukkonenLoop fuel p loopFuel s es = .ok (s', es') →
      SuffixTotalE s.tree es →
      SuffixTotalE s'.tree es' ∧
        (s'.hasTransition p = .ok true ∨ s'.isRoot = true)
  | 0, _, _, _, _, _, _, h, _ => nomatch h
  | loopFuel + 1, fuel, p, s, es, s', es', h, hE => by
    simp only [ukkonenLoop] at h
    obtain ⟨ht, hht, h⟩ := except_bind_ok h
    split at h
    · obtain ⟨⟨nes, s1⟩, h1, h⟩ := except_bind_ok h
      obtain ⟨s2, h2, h⟩ := except_bind_ok h
      refine ukkonenLoop_st loopFuel fuel p s2 nes s' es' h ?_
      rw [moveToSuffix_tree_eq fuel _ s2 h2]
      show SuffixTotalE (s1.tree.setSuffix es nes) nes
      exact stE2_setSuffix_fix _ (addLeaf_stE h1 hE)
    · next hcond =>
      have h2 : (Except.ok (s, es) : M (IState × Nat)) = .ok (s', es') := h
      cases h2
      refine ⟨hE, ?_⟩
      by_cases hh : ht = true
      · rw [hh] at hht
        exact Or.inl hht
      · by_cases hr : s.isRoot = true
        · exact Or.inr hr
        · exact absurd ⟨hh, hr⟩ hcond

theorem ukkonenPhase_st {fuel : Nat} {s : IState} {p : Nat} {s' : IState}
    (h : ukkonenPhase fuel s p = .ok s') (hT : SuffixTotal s.tree) :
    SuffixTotal s'.tree := by
  unfold ukkonenPhase at h
  obtain ⟨ht, hht, h⟩ := except_bind_ok h
  split at h
  · rw [elongate_tree_eq fuel s s' p h]
    exact hT
  · split at h
    · next hroot =>
      obtain ⟨⟨v1, s1⟩, h1, h⟩ := except_bind_ok h
      have h2 : (Except.ok s1 : M IState) = .ok s' := h
      cases h2
      exact addLeaf_explicit_st (isRoot_isExplicit hroot) h1 hT
    · next hnroot =>
      obtain ⟨⟨es1, s1⟩, h1, h⟩ := except_bind_ok h
      obtain ⟨s2, h2, h⟩ := except_bind_ok h
      obtain ⟨⟨s3, es3⟩, h3, h⟩ := except_bind_ok h
      have hE2 : SuffixTotalE s2.tree es1 := by
        rw [moveToSuffix_tree_eq fuel s1 s2 h2]
        exact stE_of_stE2_same (addLeaf_stE h1 (stE_of_st es1 hT))
      obtain ⟨hE3, hexit⟩ := ukkonenLoop_st fuel fuel p s2 es1 s3 es3 h3 hE2
      obtain ⟨ht2, hht2, h⟩ := except_bind_ok h
      split at h
      · rw [elongate_tree_eq fuel _ s' p h]
        show SuffixTotal (s3.tree.setSuffix es3 s3.label)
        exact stE_setSuffix_fix _ hE3
      · next hht2f =>
        obtain ⟨⟨v4, s4⟩, h4, h⟩ := except_bind_ok h
        have h5 : (Except.ok s4 : M IState) = .ok s' := h
        cases h5
        have hroot3 : s3.isRoot = true := by
          rcases hexit with hex | hex
          · rw [hht2] at hex
            injection hex with hx2
            exact absurd hx2 hht2f
          · exact hex
        refine addLeaf_explicit_st ?_ h4 ?_
        · show ({ s3 with tree := s3.tree.setSuffix es3 s3.root } : IState).isExplicit = true
          exact isRoot_isExplicit hroot3
        · show SuffixTotal (s3.tree.setSuffix es3 s3.root)
          exact stE_setSuffix_fix _ hE3

theorem ukkonen_suffixTotal (w : List Char) (s : IState)
    (h : ukkonen w = Except.ok s) : SuffixTotal s.tree := by
  unfold ukkonen at h
  have hstep : ∀ (s1 : IState) (i : Nat) (s2 : IState),
      ukkonenPhase (fuelFor w) s1 i = .ok s2 →
      SuffixTotal s1.tree → SuffixTotal s2.tree :=
    fun _ _ _ a b => ukkonenPhase_st a b
  have hfold : ∀ (l : List Nat) (a b : IState),
      List.foldlM (ukkonenPhase (fuelFor w)) a l = .ok b →
      SuffixTotal a.tree → SuffixTotal b.tree :=
    foldlM_except_inv hstep
  refine hfold (List.range w.length) (IState.init w) s h ?_
  intro i nd hg hr
  cases i with
  | zero => exact absurd rfl hr
  | succ n => cases hg

end NewUkkonen

namespace UkkonenPy

theorem liftI_ok {α : Type} {x : Option α} {a : α} (h : liftI x = Except.ok a) :
    x = some a := by
  cases x with
  | none => exact nomatch h
  | some b =>
    have h2 : (Except.ok b : M α) = .ok a := h
    cases h2
    rfl

theorem liftK_ok {α : Type} {x : Option α} {a : α} (h : liftK x = Except.ok a) :
    x = some a := by
  cases x with
  | none => exact nomatch h
  | some b =>
    have h2 : (Except.ok b : M α) = .ok a := h
    cases h2
    rfl

theorem getTrans_ok {t : PTree} {v : Nat} {c : Char} {e : PEdge}
    (h : getTrans t v c = .ok e) :
    ∃ nd, t.get? v = some nd ∧ lookupA nd.trans c = some e := by
  unfold getTrans at h
  obtain ⟨nd, hnd, h⟩ := except_bind_ok h
  exact ⟨nd, liftI_ok hnd, liftK_ok h⟩

theorem lookupA_some_ne_nil {α : Type} {l : List (Char × α)} {c : Char} {a : α}
    (h : lookupA l c = some a) : l ≠ [] := by
  intro he
  subst he
  cases h

theorem pstE_of_pst {t : PTree} (x : Nat) (h : PSuffixTotal t) :
    PSuffixTotalE t x :=
  fun i nd hg h2 htr _ => h i nd hg h2 htr

theorem pstE2_of_pstE {t : PTree} {x : Nat} (y : Nat) (h : PSuffixTotalE t x) :
    PSuffixTotalE2 t x y :=
  fun i nd hg h2 htr hx _ => h i nd hg h2 htr hx

theorem pstE2_exempt_low {t : PTree} {x y : Nat} (hx : x < 2)
    (h : PSuffixTotalE2 t x y) : PSuffixTotalE t y :=
  fun i nd hg h2 htr hy => h i nd hg h2 htr (by omega) hy

theorem pst_of_pstE_low {t : PTree} {x : Nat} (hx : x < 2)
    (h : PSuffixTotalE t x) : PSuffixTotal t :=
  fun i nd hg h2 htr => h i nd hg h2 htr (by omega)

theorem pstE2_append {t : PTree} {x y : Nat} (h : PSuffixTotalE2 t x y) :
    PSuffixTotalE2 (t ++ [(⟨[], none⟩ : PNode)]) x y := by
  intro i nd hg h2 htr hx hy
  by_cases hilt : i < t.length
  · rw [List.get?_append hilt] at hg
    exact h i nd hg h2 htr hx hy
  · have hi := get?_some_lt hg
    rw [List.length_append, List.length_singleton] at hi
    have hieq : i = t.length := by omega
    subst hieq
    rw [List.get?_concat_length] at hg
    cases hg
    exact absurd rfl htr

theorem pstE2_setTrans {t : PTree} {v : Nat} {c : Char} {e : PEdge} {x y : Nat}
    (hv : v = x ∨ v = y ∨ v < 2 ∨ ∃ nd, t.get? v = some nd ∧ nd.trans ≠ [])
    (h : PSuffixTotalE2 t x y) : PSuffixTotalE2 (setTrans t v c e) x y := by
  intro i nd hg h2 htr hx hy
  have hg2 : (updAt t v fun nd => ⟨setA nd.trans c e, nd.suffix⟩).get? i = some nd := hg
  rw [get?_updAt] at hg2
  split at hg2
  · next heq =>
    subst heq
    cases hnd0 : t.get? i with
    | none => rw [hnd0] at hg2; cases hg2
    | some nd0 =>
      rw [hnd0] at hg2
      cases hg2
      show nd0.suffix.isSome = true
      rcases hv with hv | hv | hv | ⟨nd1, hnd1, htr1⟩
      · exact absurd hv hx
      · exact absurd hv hy
      · exact absurd h2 (by omega)
      · rw [hnd0] at hnd1
        cases hnd1
        exact h i nd0 hnd0 h2 htr1 hx hy
  · exact h i nd hg2 h2 htr hx hy

theorem pstE2_setSuffix_fix {t : PTree} {x y : Nat} (s : Nat)
    (h : PSuffixTotalE2 t x y) : PSuffixTotalE (setSuffix t x s) y := by
  intro i nd hg h2 htr hy
  have hg2 : (updAt t x fun nd => ⟨nd.trans, some s⟩).get? i = some nd := hg
  rw [get?_updAt] at hg2
  split at hg2
  · next heq =>
    subst heq
    cases hnd0 : t.get? i with
    | none => rw [hnd0] at hg2; cases hg2
    | some nd0 =>
      rw [hnd0] at hg2
      cases hg2
      rfl
  · next hne => exact h i nd hg2 h2 htr hne hy

theorem pstE_setSuffix_fix {t : PTree} {x : Nat} (s : Nat)
    (h : PSuffixTotalE t x) : PSuffixTotal (setSuffix t x s) := by
  intro i nd hg h2 htr
  have hg2 : (updAt t x fun nd => ⟨nd.trans, some s⟩).get? i = some nd := hg
  rw [get?_updAt] at hg2
  split at hg2
  · next heq =>
    subst heq
    cases hnd0 : t.get? i with
    | none => rw [hnd0] at hg2; cases hg2
    | some nd0 =>
      rw [hnd0] at hg2
      cases hg2
      rfl
  · next hne => exact h i nd hg2 h2 htr hne

theorem testAndSplit_pst {word : List Char} {tree : PTree} {state : Nat}
    {k p : Int} {letter : Char} {b : Bool} {r : Nat} {tree' : PTree} {x : Nat}
    (h : testAndSplit word tree state k p letter = .ok (b, r, tree'))
    (hE : PSuffixTotalE tree x) :
    PSuffixTotalE2 tree' x r ∧ (b = true → PSuffixTotalE tree' x) := by
  unfold testAndSplit at h
  split at h
  · have h2 : (Except.ok (true, state, tree) : M (Bool × Nat × PTree)) =
        .ok (b, r, tree') := h
    cases h2
    exact ⟨pstE2_of_pstE _ hE, fun _ => hE⟩
  · split at h
    · obtain ⟨c, hc, h⟩ := except_bind_ok h
      obtain ⟨e, he, h⟩ := except_bind_ok h
      obtain ⟨c2, hc2, h⟩ := except_bind_ok h
      split at h
      · have h2 : (Except.ok (true, state, tree) : M (Bool × Nat × PTree)) =
            .ok (b, r, tree') := h
        cases h2
        exact ⟨pstE2_of_pstE _ hE, fun _ => hE⟩
      · have h2 : (Except.ok _ : M (Bool × Nat × PTree)) = .ok (b, r, tree') := h
        cases h2
        refine ⟨?_, fun hb => nomatch hb⟩
        obtain ⟨nd, hnd, hl⟩ := getTrans_ok he
        refine pstE2_setTrans (Or.inr (Or.inl rfl))
          (pstE2_setTrans ?_ (pstE2_append (pstE2_of_pstE _ hE)))
        refine Or.inr (Or.inr (Or.inr ⟨nd, ?_, lookupA_some_ne_nil hl⟩))
        rw [List.get?_append (get?_some_lt hnd)]
        exact hnd
    · obtain ⟨nd, hnd, h⟩ := except_bind_ok h
      have h2 : (Except.ok _ : M (Bool × Nat × PTree)) = .ok (b, r, tree') := h
      cases h2
      exact ⟨pstE2_of_pstE _ hE, fun _ => hE⟩

theorem updateLoop_pst :
    ∀ (loopFuel : Nat) (word : List Char) (fuel i : Nat) (tree : PTree)
      (state : Nat) (k : Int) (oldr : Nat) (isEnd : Bool) (r : Nat)
      (tree' : PTree) (state' : Nat) (k' : Int) (oldr' : Nat),
      updateLoop word fuel i loopFuel tree state k oldr isEnd r =
        .ok (tree', state', k', oldr') →
      (if isEnd = true then PSuffixTotalE tree oldr
       else PSuffixTotalE2 tree oldr r) →
      PSuffixTotalE tree' oldr'
  | 0, _, _, _, _, _, _, _, _, _, _, _, _, _, h, _ => nomatch h
  | loopFuel + 1, word, fuel, i, tree, state, k, oldr, isEnd, r, tree', state',
      k', oldr', h, hinv => by
    simp only [updateLoop] at h
    split at h
    · next hend =>
      have h2 : (Except.ok (tree, state, k, oldr) : M (PTree × Nat × Int × Nat)) =
          .ok (tree', state', k', oldr') := h
      cases h2
      rw [if_pos hend] at hinv
      exact hinv
    · next hend =>
      rw [if_neg hend] at hinv
      obtain ⟨letter, hlet, h⟩ := except_bind_ok h
      have hE2t : PSuffixTotalE2
          (setTrans (tree ++ [(⟨[], none⟩ : PNode)]) r letter
            ⟨(i : Int), (word.length : Int) - 1, tree.length⟩) oldr r :=
        pstE2_setTrans (Or.inr (Or.inl rfl)) (pstE2_append hinv)
      by_cases hor : oldr ≠ ROOT
      · rw [if_pos hor] at h
        obtain ⟨ndst, hndst, h⟩ := except_bind_ok h
        obtain ⟨sfx, hsfx, h⟩ := except_bind_ok h
        obtain ⟨⟨state2, k2⟩, hcan, h⟩ := except_bind_ok h
        obtain ⟨⟨isEnd2, r2, tree4⟩, hts, h⟩ := except_bind_ok h
        obtain ⟨hq1, hq2⟩ := testAndSplit_pst hts (pstE2_setSuffix_fix _ hE2t)
        refine updateLoop_pst loopFuel word fuel i _ state2 k2 r isEnd2 r2
          tree' state' k' oldr' h ?_
        by_cases hI : isEnd2 = true
        · rw [if_pos hI]
          exact hq2 hI
        · rw [if_neg hI]
          exact hq1
      · rw [if_neg hor] at h
        obtain ⟨ndst, hndst, h⟩ := except_bind_ok h
        obtain ⟨sfx, hsfx, h⟩ := except_bind_ok h
        obtain ⟨⟨state2, k2⟩, hcan, h⟩ := except_bind_ok h
        obtain ⟨⟨isEnd2, r2, tree4⟩, hts, h⟩ := except_bind_ok h
        have hR : oldr = ROOT := by
          by_contra hc
          exact hor hc
        have hE1 : PSuffixTotalE
            (setTrans (tree ++ [(⟨[], none⟩ : PNode)]) r letter
              ⟨(i : Int), (word.length : Int) - 1, tree.length⟩) r :=
          pstE2_exempt_low (by rw [hR]; decide) hE2t
        obtain ⟨hq1, hq2⟩ := testAndSplit_pst hts hE1
        refine updateLoop_pst loopFuel word fuel i _ state2 k2 r isEnd2 r2
          tree' state' k' oldr' h ?_
        by_cases hI : isEnd2 = true
        · rw [if_pos hI]
          exact hq2 hI
        · rw [if_neg hI]
          exact hq1

theorem update_pst {word : List Char} {fuel : Nat} {tree : PTree} {state : Nat}
    {k : Int} {i : Nat} {tree' : PTree} {state' : Nat} {k' : Int}
    (h : update word fuel tree state k i = .ok (tree', state', k'))
    (hT : PSuffixTotal tree) : PSuffixTotal tree' := by
  unfold update at h
  obtain ⟨letter, hlet, h⟩ := except_bind_ok h
  obtain ⟨⟨isEnd1, r1, tree1⟩, hts, h⟩ := except_bind_ok h
  obtain ⟨⟨tree2, state2, k2, oldr2⟩, hloop, h⟩ := except_bind_ok h
  obtain ⟨hq1, hq2⟩ := testAndSplit_pst hts (pstE_of_pst ROOT hT)
  have hE2 : PSuffixTotalE tree2 oldr2 := by
    refine updateLoop_pst fuel word fuel i tree1 state k ROOT isEnd1 r1
      tree2 state2 k2 oldr2 hloop ?_
    by_cases hI : isEnd1 = true
    · rw [if_pos hI]
      exact hq2 hI
    · rw [if_neg hI]
      exact hq1
  simp only [] at h
  by_cases hor : oldr2 ≠ ROOT
  · rw [if_pos hor] at h
    have h2 : (Except.ok _ : M (PTree × Nat × Int)) = .ok (tree', state', k') := h
    cases h2
    exact pstE_setSuffix_fix _ hE2
  · rw [if_neg hor] at h
    have h2 : (Except.ok (tree2, state2, k2) : M (PTree × Nat × Int)) =
        .ok (tree', state', k') := h
    cases h2
    have hR : oldr2 = ROOT := by
      by_contra hc
      exact hor hc
    exact pst_of_pstE_low (by rw [hR]; decide) hE2

theorem phaseStep_pst {word : List Char} {fuel : Nat}
    {acc : PTree × Nat × Int} {i : Nat} {acc' : PTree × Nat × Int}
    (h : phaseStep word fuel acc i = .ok acc') (hT : PSuffixTotal acc.1) :
    PSuffixTotal acc'.1 := by
  obtain ⟨tree, state, k⟩ := acc
  unfold phaseStep at h
  obtain ⟨⟨tree1, state1, k1⟩, hup, h⟩ := except_bind_ok h
  obtain ⟨⟨state2, k2⟩, hcan, h⟩ := except_bind_ok h
  have h2 : (Except.ok (tree1, state2, k2) : M (PTree × Nat × Int)) = .ok acc' := h
  cases h2
  exact update_pst hup hT

theorem ukkonen_pst (w : List Char) (t : PTree) (h : ukkonen w = .ok t) :
    PSuffixTotal t := by
  unfold ukkonen at h
  rw [buildLoop_eq, ← List.range_eq_range'] at h
  obtain ⟨⟨tree1, state1, k1⟩, hfold, h⟩ := except_bind_ok h
  simp only [] at h
  have h2 : (Except.ok tree1 : M PTree) = .ok t := h
  cases h2
  have hstep : ∀ (a : PTree × Nat × Int) (i : Nat) (b : PTree × Nat × Int),
      phaseStep w (fuelFor w) a i = .ok b → PSuffixTotal a.1 → PSuffixTotal b.1 :=
    fun _ _ _ a b => phaseStep_pst a b
  have hfold2 : ∀ (l : List Nat) (a b : PTree × Nat × Int),
      List.foldlM (phaseStep w (fuelFor w)) a l = .ok b →
      PSuffixTotal a.1 → PSuffixTotal b.1 :=
    foldlM_except_inv hstep
  refine hfold2 (List.range w.length) (initTree, ROOT, 0) (t, state1, k1)
    hfold ?_
  intro i nd hg h2i htr
  have hlt := get?_some_lt hg
  simp only [initTree, List.length_cons, List.length_nil] at hlt
  exact absurd h2i (by omega)

end UkkonenPy

/-- Claim C7 (amended): the acquisition half of the claim holds of
`new_ukkonen.py` and `ukkonen.py` — every internal vertex other than the root
carries a suffix link once the phase that created it completes (the invariant
is preserved by every single phase and therefore holds of every successful
build; in `ukkonen.py` the internal vertices are those with at least one
character transition, above the auxiliary `BOTTOM` state and the root) —
and the root-self-link half holds of `short_ukkonen.py`, whose returned tree
always carries `tree[0]['suffix'] = 0`.  The root-self-link half fails for
the other two builders, as the counterexample shows: `new_ukkonen.py` never
gives the root a suffix link, and `ukkonen.py` links its root to the bottom
vertex. -/
theorem claimC7 (w : List Char) (node : Nat) (position length : Int)
    (t : ShortUkkonen.STree)
    (h : ShortUkkonen.ukkonen w = some (node, position, length, t)) :
    (∃ nd, t.get? 0 = some nd ∧ nd.suffix = some 0) ∧
    (∀ (fuel : Nat) (s : NewUkkonen.IState) (p : Nat) (s' : NewUkkonen.IState),
      NewUkkonen.ukkonenPhase fuel s p = Except.ok s' →
      NewUkkonen.SuffixTotal s.tree → NewUkkonen.SuffixTotal s'.tree) ∧
    (∀ (w2 : List Char) (s : NewUkkonen.IState),
      NewUkkonen.ukkonen w2 = Except.ok s → NewUkkonen.SuffixTotal s.tree) ∧
    (∀ (word : List Char) (fuel : Nat) (tr : UkkonenPy.PTree) (state : Nat)
      (k : Int) (i : Nat) (tr' : UkkonenPy.PTree) (state' : Nat) (k' : Int),
      UkkonenPy.update word fuel tr state k i = Except.ok (tr', state', k') →
      UkkonenPy.PSuffixTotal tr → UkkonenPy.PSuffixTotal tr') ∧
    (∀ (w2 : List Char) (tr : UkkonenPy.PTree),
      UkkonenPy.ukkonen w2 = Except.ok tr → UkkonenPy.PSuffixTotal tr) := by
  refine ⟨?_, ?_, ?_, ?_, ?_⟩
  · obtain ⟨t0, p0, rfl, -, ⟨-, -, -, hlen⟩⟩ := ShortUkkonen.ukkonen_some h
    cases hnd : t0.get? 0 with
    | none =>
      rw [List.get?_eq_none] at hnd
      simp only [] at hlen
      omega
    | some nd =>
      refine ⟨⟨nd.trans, some 0⟩, ?_, rfl⟩
      show (updAt t0 0 _).get? 0 = _
      rw [get?_updAt, if_pos rfl, hnd]
      rfl
  · intro fuel s p s' hp hT
    exact NewUkkonen.ukkonenPhase_st hp hT
  · intro w2 s hb
    exact NewUkkonen.ukkonen_suffixTotal w2 s hb
  · intro word fuel tr state k i tr' state' k' hu hT
    exact UkkonenPy.update_pst hu hT
  · intro w2 tr hb
    exact UkkonenPy.ukkonen_pst w2 tr hb

/-- Claim C7 witness: the short build over `"ab"` returns a tree whose root
node carries the self suffix link `some 0`. -/
theorem claimC7_witness :
    ShortUkkonen.ukkonen "ab".toList =
      some (0, 0, 0, [⟨[('a', ⟨0, .inf, .leaf⟩), ('b', ⟨1, .inf, .leaf⟩)], some 0⟩]) ∧
    (∃ nd, ([(⟨[('a', ⟨0, .inf, .leaf⟩), ('b', ⟨1, .inf, .leaf⟩)], some 0⟩ : ShortUkkonen.SNode)].get? 0
        = some nd ∧ nd.suffix = some 0)) :=
  ⟨by decide, (claimC7 "ab".toList 0 0 0 _ (by decide)).1⟩
